import Mathlib

/-!
Verification development for the npm package-update utility
(`src/utility/npm.js` of angular/schematics-package-update-builds).

The embedding models:
  * version strings and the restricted semver grammar the program's data
    actually uses (`*`, exact `M.m.p`, `~M.m.p`, `^M.m.p`) — the `semver`
    and `semver-intersect` library calls are modelled as Lean functions on
    strings with the documented npm semantics on that grammar;
  * `_getVersionFromNpmPackage` (version selection from registry metadata);
  * `_getRecursiveVersions` (the recursive peer-dependency walk) as a
    fuel-indexed deterministic function; the rxjs `mergeMap` pipeline is
    modelled as the synchronous left-to-right interleaving, errors thrown
    anywhere abort the whole run (`Except`);
  * `_getNpmPackageJson`'s cache (`npmPackageJsonCache`) as explicit state
    passing, with concurrency modelled as an arbitrary sequential
    interleaving of fetch operations against the shared cache;
  * the `updatePackageJson` rule chain over a file-tree model.
-/

namespace PkgUpdate

/-- Semantic version triple `major.minor.patch`, the version grammar the
program's registry data uses (pre-release and build metadata are outside
the modelled grammar). -/
structure SemVer where
  major : Nat
  minor : Nat
  patch : Nat
deriving DecidableEq, Repr

/-- Strict version order, modelling `semver.lt` on the triple grammar. -/
def semverLt (a b : SemVer) : Bool :=
  a.major < b.major ||
    (a.major == b.major && (a.minor < b.minor ||
      (a.minor == b.minor && a.patch < b.patch)))

/-- Non-strict version order. -/
def semverLe (a b : SemVer) : Bool :=
  semverLt a b || a == b

/-- Larger of two versions. -/
def maxSemVer (a b : SemVer) : SemVer :=
  if semverLt a b then b else a

/-- Decimal digit test and value, for parsing version components. -/
def digitVal (c : Char) : Nat := c.toNat - 48

/-- A non-empty all-digit character list. -/
def isDigitList (l : List Char) : Bool :=
  !l.isEmpty && l.all (·.isDigit)

/-- Numeric value of a digit list, `none` if empty or not all digits. -/
def digitsVal (l : List Char) : Option Nat :=
  if isDigitList l then some (l.foldl (fun a c => a * 10 + digitVal c) 0) else none

/-- Split a character list at `.` separators. -/
def splitDots : List Char → List (List Char)
  | [] => [[]]
  | c :: rest =>
    if c = '.' then [] :: splitDots rest
    else
      match splitDots rest with
      | [] => [[c]]
      | h :: t => (c :: h) :: t

/-- Parse `M.m.p` from characters. -/
def parseSemVerD (l : List Char) : Option SemVer :=
  match splitDots l with
  | [a, b, c] =>
    match digitsVal a, digitsVal b, digitsVal c with
    | some x, some y, some z => some ⟨x, y, z⟩
    | _, _, _ => none
  | _ => none

/-- Parse `M.m.p` from a string; models `semver.valid` (restricted to the
triple grammar) when used as a test. -/
def parseSemVer (s : String) : Option SemVer :=
  parseSemVerD s.data

/-- The shapes of version selectors the program manipulates: the wildcard,
an exact version, and `~`/`^` ranges. -/
inductive RangeShape where
  | star : RangeShape
  | exact : SemVer → RangeShape
  | tilde : SemVer → RangeShape
  | caret : SemVer → RangeShape
deriving DecidableEq, Repr

def RangeShape.isStar : RangeShape → Bool
  | .star => true
  | _ => false

/-- Smallest version satisfying a shape (inclusive lower bound). -/
def lowerBound : RangeShape → SemVer
  | .star => ⟨0, 0, 0⟩
  | .exact v => v
  | .tilde v => v
  | .caret v => v

/-- Exclusive upper bound of a shape (`none` = unbounded), with npm's
zero-major `^` semantics. -/
def upperBound : RangeShape → Option SemVer
  | .star => none
  | .exact v => some ⟨v.major, v.minor, v.patch + 1⟩
  | .tilde v => some ⟨v.major, v.minor + 1, 0⟩
  | .caret v =>
    some (if 0 < v.major then ⟨v.major + 1, 0, 0⟩
          else if 0 < v.minor then ⟨0, v.minor + 1, 0⟩
          else ⟨0, 0, v.patch + 1⟩)

/-- Parse a version-selector string into its shape; models the grammar of
ranges this program feeds to `semver`. -/
def parseRangeShape (s : String) : Option RangeShape :=
  if s = "*" then some .star
  else
    match s.data with
    | [] => none
    | c :: rest =>
      if c = '~' then (parseSemVerD rest).map .tilde
      else if c = '^' then (parseSemVerD rest).map .caret
      else (parseSemVerD (c :: rest)).map .exact

/-- `v < ub` where `none` is `∞`. -/
def ltUB (v : SemVer) (ub : Option SemVer) : Bool :=
  match ub with
  | none => true
  | some u => semverLt v u

/-- Version `v` satisfies shape `sh`. -/
def satisfies (v : SemVer) (sh : RangeShape) : Bool :=
  semverLe (lowerBound sh) v && ltUB v (upperBound sh)

/-- Models `semver.validRange` on the program's selector grammar. -/
def validRange (s : String) : Bool :=
  (parseRangeShape s).isSome

/-- Models `semver.valid`: the selector is a bare exact version. -/
def semverValid (s : String) : Bool :=
  (parseSemVer s).isSome

/-- Pick the larger of a candidate version key and the best key so far. -/
def pickMax (best : Option String) (k : String) (v : SemVer) : Option String :=
  match best with
  | none => some k
  | some b =>
    match parseSemVer b with
    | none => some k
    | some bv => if semverLt bv v then some k else some b

/-- Models `semver.maxSatisfying keys range`: the largest key (as a version)
satisfying the range, returned as its original string. -/
def maxSatisfying (keys : List String) (range : String) : Option String :=
  match parseRangeShape range with
  | none => none
  | some sh =>
    keys.foldl
      (fun best k =>
        match parseSemVer k with
        | none => best
        | some v => if satisfies v sh then pickMax best k v else best)
      none

/-- `ub1 < ub2` on exclusive upper bounds, `none` = `∞`. -/
def ubLtUb (a b : Option SemVer) : Bool :=
  match a, b with
  | none, _ => false
  | some _, none => true
  | some x, some y => semverLt x y

/-- Intervals of two shapes overlap. -/
def overlap (s1 s2 : RangeShape) : Bool :=
  ltUB (lowerBound s1) (upperBound s2) && ltUB (lowerBound s2) (upperBound s1)

/-- Models `semver.intersects r1 r2` on the program's selector grammar:
both parse and their intervals overlap. -/
def intersects (r1 r2 : String) : Bool :=
  match parseRangeShape r1, parseRangeShape r2 with
  | some s1, some s2 => overlap s1 s2
  | _, _ => false

/-- Drop a leading `~` or `^` from the characters of a range string. -/
def stripOpD (l : List Char) : List Char :=
  match l with
  | [] => []
  | c :: rest => if c = '~' ∨ c = '^' then rest else c :: rest

/-- Drop a leading `~` or `^` operator from a range string. -/
def stripOp (s : String) : String :=
  String.mk (stripOpD s.data)

/-- Operator character rendered for a shape kind. -/
def opOf : RangeShape → String
  | .star => ""
  | .exact _ => ""
  | .tilde _ => "~"
  | .caret _ => "^"

/-- The shape of kind `k` carrying version `v`. -/
def shapeWith (k : RangeShape) (v : SemVer) : RangeShape :=
  match k with
  | .star => .star
  | .exact _ => .exact v
  | .tilde _ => .tilde v
  | .caret _ => .caret v

/-- Models `semverIntersect.intersect r1 r2` on the program's grammar: the
range whose interval is the intersection of the two inputs, rendered from
the input with the larger lower bound and the operator kind of the input
with the smaller upper bound.  Only meaningful when `intersects r1 r2`;
the source only calls it under that guard (falls back to `r2` otherwise). -/
def intersectRanges (r1 r2 : String) : String :=
  match parseRangeShape r1, parseRangeShape r2 with
  | some s1, some s2 =>
    if s1.isStar && s2.isStar then "*"
    else
      opOf (if ubLtUb (upperBound s2) (upperBound s1) then s2 else s1) ++
        stripOp (if s1.isStar || semverLt (lowerBound s1) (lowerBound s2) then r2 else r1)
  | _, _ => r2

/-- Models `semverIntersect.parseRange(r).version` followed by version
parsing: the version literal of a range with its operator stripped
(`none` models the library throwing, e.g. on `*`). -/
def parseRangeVersion (s : String) : Option SemVer :=
  parseSemVerD (stripOpD s.data)

/-- First-match association-list lookup (JS object property read). -/
def lookupA {α : Type} : List (String × α) → String → Option α
  | [], _ => none
  | (k', v) :: rest, k => if k' = k then some v else lookupA rest k

/-- JS truthiness of an optional string property: absent and `""` are falsy. -/
def jsTruthy (o : Option String) : Bool :=
  match o with
  | none => false
  | some s => !(s == "")

/-- In-place JS object property write (replaces the first binding, appends
when absent). -/
def setKey {α : Type} : List (String × α) → String → α → List (String × α)
  | [], k, v => [(k, v)]
  | (k', v') :: rest, k, v =>
    if k' = k then (k, v) :: rest else (k', v') :: setKey rest k v

/-- One published version's manifest, exposing `peerDependencies`. -/
structure PkgManifest where
  peerDependencies : List (String × String)
deriving DecidableEq, Repr

/-- The registry's metadata document for one package: `name`, `dist-tags`,
and `versions` (version string to manifest). -/
structure PkgMeta where
  name : String
  distTags : List (String × String)
  versions : List (String × PkgManifest)
deriving DecidableEq, Repr

/-- A finite registry snapshot: package name to metadata document; a name
absent from the snapshot models a failed fetch (`RegistryError`). -/
abbrev Registry : Type := List (String × PkgMeta)

/-- The root `package.json`: the four dependency fields, each possibly
absent. -/
structure PackageJson where
  dependencies : Option (List (String × String))
  devDependencies : Option (List (String × String))
  peerDependencies : Option (List (String × String))
  optionalDependencies : Option (List (String × String))
deriving DecidableEq, Repr

/-- The `(depName, depVersion)` edges of the root manifest, in the order of
`kPackageJsonDependencyFields` (lines 100-109 of `npm.js`: each present
field's entries in key order). -/
def edgesOf (pj : PackageJson) : List (String × String) :=
  pj.dependencies.getD [] ++ pj.devDependencies.getD [] ++
    pj.peerDependencies.getD [] ++ pj.optionalDependencies.getD []

/-- The failure modes of a run.  The source throws `SchematicsException`
with distinct messages; the constructors carry the same data the messages
interpolate.  `outOfFuel` is the embedding's marker for a run longer than
the fuel bound (the source has no such bound and can recurse forever). -/
inductive NpmError where
  | registry : String → NpmError
  | invalidRange : String → NpmError
  | noSatisfying : String → String → NpmError
  | downgrade : String → String → String → NpmError
  | conflict : String → String → String → NpmError
  | badRange : String → String → String → NpmError
  | missingPackageJson : NpmError
  | couldNotParse : NpmError
  | outOfFuel : NpmError
deriving DecidableEq, Repr

/-- Models npm.js lines 37-52, after the dist-tag check, validity check and
loose widening: the best published match for the (possibly widened)
selector, encoded with the selector's operator shape. -/
def selectFromVersions (json : PkgMeta) (loose : Bool) (version : String) :
    Except NpmError String :=
  match maxSatisfying (json.versions.map Prod.fst) version with
  | none => .error (.noSatisfying version json.name)
  | some maybeMatch =>
    if version = "*" then .ok maybeMatch
    else if version.data.head? = some '~' then .ok ("~" ++ maybeMatch)
    else if version.data.head? = some '^' then .ok ("^" ++ maybeMatch)
    else .ok ((if loose then "~" else "") ++ maybeMatch)

/-- Models `_getVersionFromNpmPackage(json, version, loose)`
(npm.js lines 25-53): dist-tag hit returns the tagged version (`~`-widened
under `loose`); otherwise the selector must be a valid range, a bare exact
version is `~`-widened under `loose`, and the best published match is
returned with the selector's operator shape. -/
def getVersionFromNpmPackage (json : PkgMeta) (version : String) (loose : Bool) :
    Except NpmError String :=
  if jsTruthy (lookupA json.distTags version) then
    .ok ((if loose then "~" else "") ++ (lookupA json.distTags version).getD "")
  else if !(validRange version) then
    .error (.invalidRange version)
  else
    selectFromVersions json loose
      (if semverValid version && loose then "~" ++ version else version)

/-- Models npm.js lines 138-148: merge the freshly resolved constraint into
`allVersions` — conflict when an existing entry does not intersect it,
otherwise intersect in place, or set when absent. -/
def mergeConstraint (st : List (String × String)) (depName updateVersion : String) :
    Except NpmError (List (String × String)) :=
  if jsTruthy (lookupA st depName) then
    if !(intersects ((lookupA st depName).getD "") updateVersion) then
      .error (.conflict depName updateVersion ((lookupA st depName).getD ""))
    else
      .ok (setKey st depName
        (intersectRanges ((lookupA st depName).getD "") updateVersion))
  else
    .ok (setKey st depName updateVersion)

/-- Manifest of the matched published version (present whenever the match
came from the `versions` keys). -/
def manifestAt (vs : List (String × PkgManifest)) (k : String) : PkgManifest :=
  (lookupA vs k).getD ⟨[]⟩

/-- Models `_getRecursiveVersions(packageJson, packages, allVersions,
logger, loose)` (npm.js lines 99-151) as a deterministic fuel-indexed
walk.  Arguments after the fixed `reg`/`loose`/`pj`: fuel, the `packages`
targets map, the remaining root-manifest edges of the current pass, and
the `allVersions` accumulator.  Each edge is either skipped (not targeted,
or already at the requested value), merged by intersection without a fetch,
or fetched: the constraint is selected, checked for downgrade, merged with
conflict detection, and the matched version's peer-dependency map becomes
the `packages` of a recursive pass over the same root-manifest edges.
Fuel only bounds the embedding's recursion; the source recursion is
unbounded. -/
def walkAux (reg : Registry) (loose : Bool) (pj : PackageJson) :
    Nat → List (String × String) → List (String × String) →
    List (String × String) → Except NpmError (List (String × String))
  | 0, _, _, _ => .error .outOfFuel
  | _ + 1, _, [], st => .ok st
  | n + 1, packages, (depName, depVersion) :: rest, st =>
    if !(jsTruthy (lookupA packages depName)) ||
        lookupA packages depName == some depVersion then
      walkAux reg loose pj n packages rest st
    else
      if jsTruthy (lookupA st depName) &&
          intersects ((lookupA st depName).getD "") depVersion then
        walkAux reg loose pj n packages rest
          (setKey st depName
            (intersectRanges ((lookupA st depName).getD "") depVersion))
      else
        match lookupA reg depName with
        | none => .error (.registry depName)
        | some json =>
          match getVersionFromNpmPackage json ((lookupA packages depName).getD "") loose with
          | .error e => .error e
          | .ok updateVersion =>
            match maxSatisfying (json.versions.map Prod.fst) updateVersion with
            | none => walkAux reg loose pj n packages rest st
            | some mtch =>
              match parseRangeVersion updateVersion, parseRangeVersion depVersion with
              | some uv, some dvv =>
                if semverLt uv dvv then
                  .error (.downgrade depName depVersion updateVersion)
                else
                  match mergeConstraint st depName updateVersion with
                  | .error e => .error e
                  | .ok st2 =>
                    match walkAux reg loose pj n
                        (manifestAt json.versions mtch).peerDependencies
                        (edgesOf pj) st2 with
                    | .error e => .error e
                    | .ok st3 => walkAux reg loose pj n packages rest st3
              | _, _ => .error (.badRange depName updateVersion depVersion)

/-- Top-level entry of the recursive walk: one pass over the root
manifest's edges with the caller's targets map. -/
def getRecursiveVersions (reg : Registry) (pj : PackageJson)
    (packages st : List (String × String)) (loose : Bool) (fuel : Nat) :
    Except NpmError (List (String × String)) :=
  walkAux reg loose pj fuel packages (edgesOf pj) st

/-- The top-level call never terminating, i.e. exhausting every fuel
bound: in the source (which has no fuel) this is an infinite recursion. -/
def NeverTerminates (reg : Registry) (pj : PackageJson)
    (packages st : List (String × String)) (loose : Bool) : Prop :=
  ∀ fuel, getRecursiveVersions reg pj packages st loose fuel = .error .outOfFuel

/-- Every published version of every package in the snapshot declares no
peer dependencies. -/
def PeerFree (reg : Registry) : Prop :=
  ∀ p ∈ reg, ∀ v ∈ p.2.versions, v.2.peerDependencies = ([] : List (String × String))

/-- Percent-encode `/` as `%2F`, modelling
`packageName.replace(/\//g, '%2F')` (npm.js line 62). -/
def encodeSlashes : List Char → List Char
  | [] => []
  | c :: rest =>
    if c = '/' then '%' :: '2' :: 'F' :: encodeSlashes rest
    else c :: encodeSlashes rest

/-- The registry request URL for a package name (npm.js line 62), the key
of `npmPackageJsonCache`. -/
def urlOf (packageName : String) : String :=
  "https://registry.npmjs.org/" ++ String.mk (encodeSlashes packageName.data)

/-- The `npmPackageJsonCache` map: request URL to the cached outcome of
the one network call issued for it (a `ReplaySubject` replays a success or
an error alike to every subscriber, so failures are cached too). -/
abbrev Cache : Type := List (String × Except NpmError PkgMeta)

/-- Models `_getNpmPackageJson` (npm.js lines 61-87) with the network as a
deterministic `server` function from URL to outcome and the cache as
explicit state: a cache hit (in-flight or completed alike — in this
sequential interleaving model the two coincide) returns the cached
outcome without touching the network; a miss issues exactly one call and
stores its outcome.  The returned flag records whether a network call was
issued. -/
def fetchCached (server : String → Except NpmError PkgMeta) (c : Cache)
    (name : String) : Except NpmError PkgMeta × Cache × Bool :=
  match lookupA c (urlOf name) with
  | some r => (r, c, false)
  | none => (server (urlOf name), (urlOf name, server (urlOf name)) :: c, true)

/-- A sequence of fetches against the shared cache (one interleaving of
any number of concurrent or sequential callers); returns the final cache
and the log of URLs for which a network call was actually issued. -/
def runFetches (server : String → Except NpmError PkgMeta) :
    List String → Cache → Cache × List String
  | [], c => (c, [])
  | n :: rest, c =>
    ((runFetches server rest (fetchCached server c n).2.1).1,
      (if (fetchCached server c n).2.2 then [urlOf n] else []) ++
        (runFetches server rest (fetchCached server c n).2.1).2)

/-- Every cache entry is the server's outcome for its URL. -/
def CacheCorrect (server : String → Except NpmError PkgMeta) (c : Cache) : Prop :=
  ∀ u r, lookupA c u = some r → r = server u

/-- Content of a file in the schematics `Tree`: either a parsed JSON
object manifest or anything else (unparseable / non-object). -/
inductive FileContent where
  | jsonObj : PackageJson → FileContent
  | raw : String → FileContent
deriving DecidableEq

/-- The schematics host `Tree`, as a path-to-content map. -/
structure Tree where
  files : List (String × FileContent)
deriving DecidableEq

/-- Rewrite one dependency field with the resolved versions
(npm.js lines 190-200): keys with a truthy resolved entry are overwritten,
everything else is untouched; an absent/non-object field is skipped. -/
def applyField (allVersions : List (String × String)) :
    Option (List (String × String)) → Option (List (String × String))
  | none => none
  | some deps =>
    some (deps.map fun kv =>
      if jsTruthy (lookupA allVersions kv.1) then
        (kv.1, (lookupA allVersions kv.1).getD "")
      else kv)

/-- Rewrite all four dependency fields of the manifest. -/
def applyAll (pj : PackageJson) (allVersions : List (String × String)) : PackageJson :=
  ⟨applyField allVersions pj.dependencies,
   applyField allVersions pj.devDependencies,
   applyField allVersions pj.peerDependencies,
   applyField allVersions pj.optionalDependencies⟩

/-- Models the `updatePackageJson` rule chain (npm.js lines 161-208): the
first rule reads and parses `/package.json`, seeds the targets map from
`supportedPackages` (defaulting the selector to `latest`), and runs the
recursive resolution; only if that completes without error does the
second rule re-read the manifest, overwrite the resolved keys of the four
dependency fields and write the file back.  An error anywhere aborts the
chain (the schematics host discards the rule chain on a thrown
exception), returning the error and the untouched tree.  The trailing
install-task rule touches no file. -/
def updatePackageJsonRun (reg : Registry) (supportedPackages : List String)
    (maybeVersion : String) (loose : Bool) (fuel : Nat) (tree : Tree) :
    Option NpmError × Tree :=
  match lookupA tree.files "/package.json" with
  | none => (some .missingPackageJson, tree)
  | some (.raw _) => (some .couldNotParse, tree)
  | some (.jsonObj pj) =>
    match getRecursiveVersions reg pj
        (supportedPackages.map fun n =>
          (n, if maybeVersion = "" then "latest" else maybeVersion))
        [] loose fuel with
    | .error e => (some e, tree)
    | .ok allVersions =>
      match lookupA tree.files "/package.json" with
      | none => (some .missingPackageJson, tree)
      | some (.raw _) => (some .couldNotParse, tree)
      | some (.jsonObj pj2) =>
        (none, ⟨setKey tree.files "/package.json" (.jsonObj (applyAll pj2 allVersions))⟩)

/-- Lower bound of a range string, when it parses. -/
def lbOf (r : String) : Option SemVer :=
  (parseRangeShape r).map lowerBound

/-- The replacement order on stored constraint strings: whenever the old
value determines a minimum satisfying version, the new value does too and
it is not smaller. -/
def minGe (newV oldV : String) : Prop :=
  ∀ a, lbOf oldV = some a → ∃ b, lbOf newV = some b ∧ semverLe a b = true

/-- Pointwise extension of `minGe` to accumulator states: every binding of
the older state is still bound, with a `minGe`-related value. -/
def StMinGe (st' st : List (String × String)) : Prop :=
  ∀ k v, lookupA st k = some v → ∃ v', lookupA st' k = some v' ∧ minGe v' v

/-! Concrete registry snapshots, manifests and trees used by witnesses and
counterexamples. -/

/-- Package `p`, whose latest version peer-depends on `q`. -/
def meta1P : PkgMeta :=
  ⟨"p", [("latest", "1.5.0")], [("1.0.0", ⟨[]⟩), ("1.5.0", ⟨[("q", "^2.0.0")]⟩)]⟩

/-- Package `q`, a peer dependency of `p` not declared in the root manifest. -/
def meta1Q : PkgMeta :=
  ⟨"q", [("latest", "2.5.0")], [("2.0.0", ⟨[]⟩), ("2.5.0", ⟨[]⟩)]⟩

def reg1 : Registry := [("p", meta1P), ("q", meta1Q)]

/-- Root manifest declaring only `p`. -/
def pj1 : PackageJson := ⟨some [("p", "^1.0.0")], none, none, none⟩

/-- Package `a` of the spec's scenario: `latest` is `1.2.0`, which
peer-depends on `b@^2.0.0`. -/
def meta2A : PkgMeta :=
  ⟨"a", [("latest", "1.2.0")], [("1.0.0", ⟨[]⟩), ("1.2.0", ⟨[("b", "^2.0.0")]⟩)]⟩

/-- Package `b` of the spec's scenario: best match for `^2.0.0` is `2.5.0`. -/
def meta2B : PkgMeta :=
  ⟨"b", [("latest", "2.5.0")], [("2.0.0", ⟨[]⟩), ("2.5.0", ⟨[]⟩)]⟩

def reg2 : Registry := [("a", meta2A), ("b", meta2B)]

/-- Root manifest of the scenario: depends on `a@^1.0.0` only. -/
def pj2 : PackageJson := ⟨some [("a", "^1.0.0")], none, none, none⟩

/-- Metadata with two published versions and no dist-tag shaped like a
selector, for version-selection examples. -/
def meta3 : PkgMeta :=
  ⟨"c", [("latest", "2.0.0")], [("1.0.0", ⟨[]⟩), ("2.0.0", ⟨[]⟩)]⟩

/-- Package `x` published at `1.0.0`..`3.0.0`, `latest` pinned at `2.0.0`. -/
def meta4X : PkgMeta :=
  ⟨"x", [("latest", "2.0.0")], [("1.0.0", ⟨[]⟩), ("2.0.0", ⟨[]⟩), ("3.0.0", ⟨[]⟩)]⟩

/-- Package `y` whose latest version peer-depends on `x@^3.0.0`,
conflicting with `x`'s own resolution `2.0.0`. -/
def meta4Y : PkgMeta :=
  ⟨"y", [("latest", "3.0.0")], [("1.0.0", ⟨[]⟩), ("3.0.0", ⟨[("x", "^3.0.0")]⟩)]⟩

def reg4 : Registry := [("x", meta4X), ("y", meta4Y)]

def pj4 : PackageJson := ⟨some [("x", "1.0.0"), ("y", "1.0.0")], none, none, none⟩

/-- Package `a` declared at `1.0.0` with `0.9.0` also published. -/
def meta5 : PkgMeta :=
  ⟨"a", [("latest", "1.0.0")], [("0.9.0", ⟨[]⟩), ("1.0.0", ⟨[]⟩)]⟩

def reg5 : Registry := [("a", meta5)]

def pj5 : PackageJson := ⟨some [("a", "1.0.0")], none, none, none⟩

/-- Package `k` with a dist-tag named like a version: tag `1.0.0` points
at `0.5.0`, its only published version. -/
def meta6 : PkgMeta := ⟨"k", [("1.0.0", "0.5.0")], [("0.5.0", ⟨[]⟩)]⟩

def reg6 : Registry := [("k", meta6)]

/-- Root manifest declaring `k` twice: `^0.4.0` in `dependencies` and
`1.0.0` in `devDependencies`. -/
def pj6 : PackageJson := ⟨some [("k", "^0.4.0")], some [("k", "1.0.0")], none, none⟩

/-- A deterministic server for the cache examples: it knows `p`, and every
other URL fails (transport or JSON-parse failure). -/
def server7 : String → Except NpmError PkgMeta := fun u =>
  if u = urlOf "p" then .ok meta1P else .error (.registry u)

/-- Package `a` whose version `2.0.0` peer-depends on itself with a
selector that never intersects the root-declared `1.0.0`. -/
def meta8 : PkgMeta :=
  ⟨"a", [], [("1.0.0", ⟨[]⟩), ("2.0.0", ⟨[("a", "^2.0.0")]⟩)]⟩

def reg8 : Registry := [("a", meta8)]

def pj8 : PackageJson := ⟨some [("a", "1.0.0")], none, none, none⟩

/-- A peer-dependency-free registry. -/
def reg8pf : Registry :=
  [("m", ⟨"m", [("latest", "2.0.0")], [("1.0.0", ⟨[]⟩), ("2.0.0", ⟨[]⟩)]⟩)]

def pj8pf : PackageJson := ⟨some [("m", "1.0.0")], none, none, none⟩

/-- A tree holding the `pj5` manifest at `/package.json`. -/
def tree9 : Tree := ⟨[("/package.json", .jsonObj pj5)]⟩

/-- Package `x` whose `latest` dist-tag points at `9.9.9`, a version
absent from the published `versions` map. -/
def meta10 : PkgMeta := ⟨"x", [("latest", "9.9.9")], [("1.0.0", ⟨[]⟩)]⟩

def reg10 : Registry := [("x", meta10)]

def pj10 : PackageJson := ⟨some [("x", "1.0.0")], none, none, none⟩

/-! Association-list lemmas. -/

theorem lookupA_setKey_self {α : Type} (st : List (String × α)) (k : String) (v : α) :
    lookupA (setKey st k v) k = some v := by
  induction st with
  | nil => simp [setKey, lookupA]
  | cons h t ih =>
    obtain ⟨k', v'⟩ := h
    by_cases hk : k' = k
    · simp [setKey, hk, lookupA]
    · simp [setKey, hk, lookupA, ih]

theorem lookupA_setKey_ne {α : Type} (st : List (String × α)) (k k' : String) (v : α)
    (h : k' ≠ k) : lookupA (setKey st k v) k' = lookupA st k' := by
  have hne : ¬ k = k' := fun he => h he.symm
  induction st with
  | nil => simp [setKey, lookupA, hne]
  | cons hd t ih =>
    obtain ⟨k'', v''⟩ := hd
    by_cases hk : k'' = k
    · subst hk
      simp [setKey, lookupA, hne]
    · simp only [setKey, if_neg hk, lookupA]
      by_cases hk2 : k'' = k'
      · simp [hk2]
      · simp [hk2, ih]

theorem isSome_lookupA_setKey {α : Type} (st : List (String × α)) (k k' : String) (v : α)
    (h : (lookupA (setKey st k v) k').isSome = true) :
    k' = k ∨ (lookupA st k').isSome = true := by
  by_cases hk : k' = k
  · exact Or.inl hk
  · rw [lookupA_setKey_ne st k k' v hk] at h
    exact Or.inr h

theorem lookupA_mem {α : Type} (l : List (String × α)) (k : String) (v : α)
    (h : lookupA l k = some v) : (k, v) ∈ l := by
  induction l with
  | nil => simp [lookupA] at h
  | cons hd t ih =>
    obtain ⟨k', v'⟩ := hd
    by_cases hk : k' = k
    · subst hk
      simp [lookupA] at h
      simp [h]
    · simp only [lookupA, if_neg hk] at h
      exact List.mem_cons_of_mem _ (ih h)

/-! Version-order lemmas. -/

theorem semverLt_asProp (a b : SemVer) : semverLt a b = true ↔
    (a.major < b.major ∨ (a.major = b.major ∧
      (a.minor < b.minor ∨ (a.minor = b.minor ∧ a.patch < b.patch)))) := by
  simp [semverLt]

theorem semverLe_asProp (a b : SemVer) : semverLe a b = true ↔
    (semverLt a b = true ∨ a = b) := by
  simp [semverLe]

theorem semverLe_refl (a : SemVer) : semverLe a a = true := by
  simp [semverLe]

theorem semverLe_trans {a b c : SemVer} (h1 : semverLe a b = true)
    (h2 : semverLe b c = true) : semverLe a c = true := by
  obtain ⟨a1, a2, a3⟩ := a
  obtain ⟨b1, b2, b3⟩ := b
  obtain ⟨c1, c2, c3⟩ := c
  simp only [semverLe_asProp, semverLt_asProp, SemVer.mk.injEq] at h1 h2 ⊢
  omega

theorem semverLt_zero (v : SemVer) : semverLt v ⟨0, 0, 0⟩ = false := by
  obtain ⟨v1, v2, v3⟩ := v
  simp [semverLt]

theorem zero_of_not_lt {v : SemVer} (h : semverLt ⟨0, 0, 0⟩ v = false) :
    v = ⟨0, 0, 0⟩ := by
  obtain ⟨v1, v2, v3⟩ := v
  have h2 : ¬ (semverLt ⟨0, 0, 0⟩ ⟨v1, v2, v3⟩ = true) := by simp [h]
  rw [semverLt_asProp] at h2
  push_neg at h2
  simp only [SemVer.mk.injEq]
  dsimp at h2
  omega

theorem semverLe_max_left (a b : SemVer) : semverLe a (maxSemVer a b) = true := by
  unfold maxSemVer
  by_cases h : semverLt a b = true
  · simp [h, semverLe]
  · simp [h, semverLe_refl]

/-! Range-string parsing lemmas. -/

theorem splitDots_head (l : List Char) (x : Char) (xs : List Char) (t : List (List Char))
    (h : splitDots l = (x :: xs) :: t) : ∃ r, l = x :: r := by
  cases l with
  | nil => simp [splitDots] at h
  | cons c rest =>
    simp only [splitDots] at h
    by_cases hc : c = '.'
    · rw [if_pos hc] at h
      simp at h
    · rw [if_neg hc] at h
      cases hsp : splitDots rest with
      | nil =>
        rw [hsp] at h
        simp only [List.cons.injEq] at h
        exact ⟨rest, by rw [h.1.1]⟩
      | cons h0 t0 =>
        rw [hsp] at h
        simp only [List.cons.injEq] at h
        exact ⟨rest, by rw [h.1.1]⟩

theorem digitsVal_head (l : List Char) (n : Nat) (h : digitsVal l = some n) :
    ∃ c r, l = c :: r ∧ c.isDigit = true := by
  unfold digitsVal at h
  by_cases hd : isDigitList l = true
  · cases l with
    | nil => simp [isDigitList] at hd
    | cons c r =>
      refine ⟨c, r, rfl, ?_⟩
      unfold isDigitList at hd
      simp at hd
      exact hd.1
  · rw [if_neg hd] at h
    cases h

theorem parseSemVerD_head (l : List Char) (v : SemVer) (h : parseSemVerD l = some v) :
    ∃ c r, l = c :: r ∧ c.isDigit = true := by
  unfold parseSemVerD at h
  rcases hsp : splitDots l with _ | ⟨a, _ | ⟨b, _ | ⟨c3, _ | _⟩⟩⟩ <;> rw [hsp] at h <;>
    try cases h
  dsimp only at h
  cases hda : digitsVal a with
  | none => rw [hda] at h; cases h
  | some x =>
    obtain ⟨c, r, hac, hcd⟩ := digitsVal_head a x hda
    rw [hac] at hsp
    obtain ⟨r2, hl⟩ := splitDots_head l c r _ hsp
    exact ⟨c, r2, hl, hcd⟩

theorem semverLe_max_right (a b : SemVer) : semverLe b (maxSemVer a b) = true := by
  unfold maxSemVer
  by_cases h : semverLt a b = true
  · simp [h, semverLe_refl]
  · rw [if_neg h]
    obtain ⟨a1, a2, a3⟩ := a
    obtain ⟨b1, b2, b3⟩ := b
    rw [semverLt_asProp] at h
    push_neg at h
    simp only [semverLe_asProp, semverLt_asProp, SemVer.mk.injEq]
    dsimp at h ⊢
    omega

theorem isStar_true_iff (s : RangeShape) : s.isStar = true ↔ s = .star := by
  cases s <;> simp [RangeShape.isStar]

theorem parseSemVerD_stripOpD (r : String) (s : RangeShape)
    (h : parseRangeShape r = some s) (hs : s.isStar = false) :
    parseSemVerD (stripOpD r.data) = some (lowerBound s) := by
  unfold parseRangeShape at h
  by_cases hr : r = "*"
  · rw [if_pos hr] at h
    cases h
    simp [RangeShape.isStar] at hs
  · rw [if_neg hr] at h
    cases hd : r.data with
    | nil => rw [hd] at h; cases h
    | cons c rest =>
      rw [hd] at h
      dsimp only at h
      by_cases hc : c = '~'
      · rw [if_pos hc] at h
        cases hp : parseSemVerD rest with
        | none => rw [hp] at h; cases h
        | some v =>
          rw [hp] at h
          simp only [Option.map_some'] at h
          cases h
          simp only [stripOpD, if_pos (Or.inl hc)]
          simpa [lowerBound] using hp
      · rw [if_neg hc] at h
        by_cases hc2 : c = '^'
        · rw [if_pos hc2] at h
          cases hp : parseSemVerD rest with
          | none => rw [hp] at h; cases h
          | some v =>
            rw [hp] at h
            simp only [Option.map_some'] at h
            cases h
            simp only [stripOpD, if_pos (Or.inr hc2)]
            simpa [lowerBound] using hp
        · rw [if_neg hc2] at h
          cases hp : parseSemVerD (c :: rest) with
          | none => rw [hp] at h; cases h
          | some v =>
            rw [hp] at h
            simp only [Option.map_some'] at h
            cases h
            have hor : ¬ (c = '~' ∨ c = '^') := by
              intro hor
              cases hor with
              | inl a => exact hc a
              | inr a => exact hc2 a
            simp only [stripOpD, if_neg hor]
            simpa [lowerBound] using hp

theorem parseRangeShape_construct (k : RangeShape) (l : List Char) (v : SemVer)
    (hk : k.isStar = false) (hp : parseSemVerD l = some v) :
    parseRangeShape (opOf k ++ String.mk l) = some (shapeWith k v) := by
  obtain ⟨c, r, hl, hcd⟩ := parseSemVerD_head l v hp
  cases k with
  | star => simp [RangeShape.isStar] at hk
  | tilde w =>
    have hdata : (("~" : String) ++ String.mk l).data = '~' :: l := by
      rw [String.data_append]
      rfl
    have hne : ("~" : String) ++ String.mk l ≠ "*" := by
      intro he
      have hd2 := congrArg String.data he
      rw [hdata] at hd2
      simp at hd2
    show parseRangeShape (("~" : String) ++ String.mk l) = _
    unfold parseRangeShape
    rw [if_neg hne, hdata]
    dsimp only
    rw [if_pos rfl, hp]
    rfl
  | caret w =>
    have hdata : (("^" : String) ++ String.mk l).data = '^' :: l := by
      rw [String.data_append]
      rfl
    have hne : ("^" : String) ++ String.mk l ≠ "*" := by
      intro he
      have hd2 := congrArg String.data he
      rw [hdata] at hd2
      simp at hd2
    show parseRangeShape (("^" : String) ++ String.mk l) = _
    unfold parseRangeShape
    rw [if_neg hne, hdata]
    dsimp only
    rw [if_neg (by decide : ¬ ('^' : Char) = '~'), if_pos rfl, hp]
    rfl
  | exact w =>
    have hdata : (("" : String) ++ String.mk l).data = l := by
      rw [String.data_append]
      rfl
    have hne : ("" : String) ++ String.mk l ≠ "*" := by
      intro he
      have hd2 := congrArg String.data he
      rw [hdata, hl] at hd2
      simp at hd2
      rw [hd2.1] at hcd
      exact absurd hcd (by decide)
    have hct : ¬ c = '~' := by
      intro he
      rw [he] at hcd
      exact absurd hcd (by decide)
    have hcc : ¬ c = '^' := by
      intro he
      rw [he] at hcd
      exact absurd hcd (by decide)
    show parseRangeShape (("" : String) ++ String.mk l) = _
    unfold parseRangeShape
    rw [if_neg hne, hdata, hl]
    dsimp only
    rw [if_neg hct, if_neg hcc, ← hl, hp]
    rfl

theorem lowerBound_shapeWith (k : RangeShape) (v : SemVer) (hk : k.isStar = false) :
    lowerBound (shapeWith k v) = v := by
  cases k <;> first | rfl | simp [RangeShape.isStar] at hk

theorem lbOf_render (k : RangeShape) (rA : String) (sA : RangeShape)
    (hk : k.isStar = false) (hA : parseRangeShape rA = some sA) (hsA : sA.isStar = false) :
    lbOf (opOf k ++ stripOp rA) = some (lowerBound sA) := by
  have hstrip := parseSemVerD_stripOpD rA sA hA hsA
  have hcons := parseRangeShape_construct k (stripOpD rA.data) (lowerBound sA) hk hstrip
  unfold lbOf
  rw [show stripOp rA = String.mk (stripOpD rA.data) from rfl, hcons]
  simp only [Option.map_some']
  rw [lowerBound_shapeWith k _ hk]

theorem nonstar_of_ubLtUb {s1 s2 : RangeShape}
    (h : ubLtUb (upperBound s2) (upperBound s1) = true) : s2.isStar = false := by
  cases s2 <;> try rfl
  simp [upperBound, ubLtUb] at h

theorem nonstar_of_not_ubLtUb {s1 s2 : RangeShape}
    (h : ubLtUb (upperBound s2) (upperBound s1) = false)
    (hno : (s1.isStar && s2.isStar) = false) : s1.isStar = false := by
  cases s1 <;> try rfl
  cases s2 <;> simp [upperBound, ubLtUb, RangeShape.isStar] at h hno

theorem nonstar_of_pickA {s1 s2 : RangeShape}
    (h : (s1.isStar || semverLt (lowerBound s1) (lowerBound s2)) = true)
    (hno : (s1.isStar && s2.isStar) = false) : s2.isStar = false := by
  cases s2 <;> try rfl
  cases s1 <;>
    simp [RangeShape.isStar, lowerBound, semverLt_zero] at h hno

theorem nonstar_of_not_pickA {s1 s2 : RangeShape}
    (h : (s1.isStar || semverLt (lowerBound s1) (lowerBound s2)) = false) :
    s1.isStar = false := by
  cases s1 <;> simp [RangeShape.isStar] at h ⊢

theorem max_lb_of_pickA {s1 s2 : RangeShape}
    (h : (s1.isStar || semverLt (lowerBound s1) (lowerBound s2)) = true) :
    maxSemVer (lowerBound s1) (lowerBound s2) = lowerBound s2 := by
  rcases Bool.or_eq_true _ _ |>.mp h with hst | hlt
  · rw [isStar_true_iff] at hst
    subst hst
    show maxSemVer ⟨0, 0, 0⟩ _ = _
    unfold maxSemVer
    by_cases hz : semverLt ⟨0, 0, 0⟩ (lowerBound s2) = true
    · rw [if_pos hz]
    · rw [if_neg hz]
      rw [zero_of_not_lt (Bool.not_eq_true _ |>.mp hz)]
  · unfold maxSemVer
    rw [if_pos hlt]

theorem max_lb_of_not_pickA {s1 s2 : RangeShape}
    (h : (s1.isStar || semverLt (lowerBound s1) (lowerBound s2)) = false) :
    maxSemVer (lowerBound s1) (lowerBound s2) = lowerBound s1 := by
  have hlt : semverLt (lowerBound s1) (lowerBound s2) = false := by
    cases hx : s1.isStar <;> rw [hx] at h <;> simpa using h
  unfold maxSemVer
  rw [hlt]
  simp

theorem lbOf_intersectRanges (r1 r2 : String) (s1 s2 : RangeShape)
    (h1 : parseRangeShape r1 = some s1) (h2 : parseRangeShape r2 = some s2) :
    lbOf (intersectRanges r1 r2) =
      some (maxSemVer (lowerBound s1) (lowerBound s2)) := by
  unfold intersectRanges
  rw [h1, h2]
  dsimp only
  by_cases hno : (s1.isStar && s2.isStar) = true
  · rw [if_pos hno]
    have hs1 : s1 = .star := isStar_true_iff s1 |>.mp (Bool.and_eq_true _ _ |>.mp hno).1
    have hs2 : s2 = .star := isStar_true_iff s2 |>.mp (Bool.and_eq_true _ _ |>.mp hno).2
    subst hs1
    subst hs2
    decide
  · rw [if_neg hno]
    have hnoF : (s1.isStar && s2.isStar) = false := Bool.not_eq_true _ |>.mp hno
    by_cases hA : (s1.isStar || semverLt (lowerBound s1) (lowerBound s2)) = true
    · rw [if_pos hA, max_lb_of_pickA hA]
      have hsA := nonstar_of_pickA hA hnoF
      by_cases hB : ubLtUb (upperBound s2) (upperBound s1) = true
      · rw [if_pos hB]
        exact lbOf_render s2 r2 s2 (nonstar_of_ubLtUb hB) h2 hsA
      · rw [if_neg hB]
        exact lbOf_render s1 r2 s2
          (nonstar_of_not_ubLtUb (Bool.not_eq_true _ |>.mp hB) hnoF) h2 hsA
    · have hAF := Bool.not_eq_true _ |>.mp hA
      rw [if_neg hA, max_lb_of_not_pickA hAF]
      have hsA := nonstar_of_not_pickA hAF
      by_cases hB : ubLtUb (upperBound s2) (upperBound s1) = true
      · rw [if_pos hB]
        exact lbOf_render s2 r1 s1 (nonstar_of_ubLtUb hB) h1 hsA
      · rw [if_neg hB]
        exact lbOf_render s1 r1 s1
          (nonstar_of_not_ubLtUb (Bool.not_eq_true _ |>.mp hB) hnoF) h1 hsA

/-! Monotonicity of constraint replacement. -/

theorem minGe_refl (v : String) : minGe v v :=
  fun a h => ⟨a, h, semverLe_refl a⟩

theorem minGe_trans {c b a : String} (h1 : minGe c b) (h2 : minGe b a) : minGe c a := by
  intro x hx
  obtain ⟨y, hy, hxy⟩ := h2 x hx
  obtain ⟨z, hz, hyz⟩ := h1 y hy
  exact ⟨z, hz, semverLe_trans hxy hyz⟩

theorem parses_of_intersects {r1 r2 : String} (h : intersects r1 r2 = true) :
    ∃ s1 s2, parseRangeShape r1 = some s1 ∧ parseRangeShape r2 = some s2 := by
  unfold intersects at h
  cases hp1 : parseRangeShape r1 <;> cases hp2 : parseRangeShape r2 <;>
    rw [hp1, hp2] at h <;> dsimp only at h
  · cases h
  · cases h
  · cases h
  · exact ⟨_, _, rfl, rfl⟩

theorem minGe_intersectRanges (old other : String)
    (hint : intersects old other = true) :
    minGe (intersectRanges old other) old := by
  obtain ⟨s1, s2, hp1, hp2⟩ := parses_of_intersects hint
  intro a ha
  refine ⟨maxSemVer (lowerBound s1) (lowerBound s2),
    lbOf_intersectRanges old other s1 s2 hp1 hp2, ?_⟩
  unfold lbOf at ha
  rw [hp1] at ha
  simp only [Option.map_some'] at ha
  cases ha
  exact semverLe_max_left _ _

theorem jsTruthy_lookup {st : List (String × String)} {d : String}
    (h : jsTruthy (lookupA st d) = true) :
    ∃ ex, lookupA st d = some ex ∧ ex ≠ "" := by
  cases hx : lookupA st d with
  | none => rw [hx] at h; cases h
  | some ex =>
    rw [hx] at h
    unfold jsTruthy at h
    simp at h
    exact ⟨ex, rfl, h⟩

theorem empty_of_jsTruthy_false {v : String} (h : jsTruthy (some v) = false) :
    v = "" := by
  unfold jsTruthy at h
  simpa using h

theorem lbOf_empty : lbOf "" = none := by decide

theorem stMinGe_refl (st : List (String × String)) : StMinGe st st :=
  fun k v h => ⟨v, h, minGe_refl v⟩

theorem stMinGe_trans {st3 st2 st1 : List (String × String)}
    (h1 : StMinGe st3 st2) (h2 : StMinGe st2 st1) : StMinGe st3 st1 := by
  intro k v hv
  obtain ⟨v2, hv2, hg2⟩ := h2 k v hv
  obtain ⟨v3, hv3, hg3⟩ := h1 k v2 hv2
  exact ⟨v3, hv3, minGe_trans hg3 hg2⟩

theorem stMinGe_setKey_intersect (st : List (String × String)) (d ex other : String)
    (h : lookupA st d = some ex) (hint : intersects ex other = true) :
    StMinGe (setKey st d (intersectRanges ex other)) st := by
  intro k v hv
  by_cases hk : k = d
  · subst hk
    rw [hv] at h
    cases h
    exact ⟨_, lookupA_setKey_self st k _, minGe_intersectRanges ex other hint⟩
  · rw [lookupA_setKey_ne st d k _ hk]
    exact ⟨v, hv, minGe_refl v⟩

theorem stMinGe_setKey_absent (st : List (String × String)) (d u : String)
    (h : jsTruthy (lookupA st d) = false) :
    StMinGe (setKey st d u) st := by
  intro k v hv
  by_cases hk : k = d
  · subst hk
    rw [hv] at h
    have hveq := empty_of_jsTruthy_false h
    subst hveq
    refine ⟨u, lookupA_setKey_self st k u, ?_⟩
    intro a ha
    rw [lbOf_empty] at ha
    cases ha
  · rw [lookupA_setKey_ne st d k _ hk]
    exact ⟨v, hv, minGe_refl v⟩

theorem mergeConstraint_stMinGe (st : List (String × String)) (d u : String)
    (st2 : List (String × String)) (h : mergeConstraint st d u = .ok st2) :
    StMinGe st2 st := by
  unfold mergeConstraint at h
  by_cases ht : jsTruthy (lookupA st d) = true
  · rw [if_pos ht] at h
    obtain ⟨ex, hex, _⟩ := jsTruthy_lookup ht
    rw [hex] at h
    simp only [Option.getD_some] at h
    by_cases hi : intersects ex u = true
    · rw [if_neg (show ¬ ((!(intersects ex u)) = true) by simp [hi])] at h
      cases h
      exact stMinGe_setKey_intersect st d ex u hex hi
    · have hif : intersects ex u = false := Bool.not_eq_true _ |>.mp hi
      rw [if_pos (show (!(intersects ex u)) = true by rw [hif]; rfl)] at h
      cases h
  · rw [if_neg ht] at h
    cases h
    exact stMinGe_setKey_absent st d u (Bool.not_eq_true _ |>.mp ht)

theorem walkAux_stMinGe (reg : Registry) (loose : Bool) (pj : PackageJson) :
    ∀ (n : Nat) (p E st out : List (String × String)),
      walkAux reg loose pj n p E st = .ok out → StMinGe out st := by
  intro n
  induction n with
  | zero =>
    intro p E st out h
    cases h
  | succ n ih =>
    intro p E st out h
    cases E with
    | nil =>
      cases h
      exact stMinGe_refl st
    | cons e rest =>
      obtain ⟨d, dv⟩ := e
      rw [walkAux] at h
      by_cases h1 : (!(jsTruthy (lookupA p d)) || lookupA p d == some dv) = true
      · rw [if_pos h1] at h
        exact ih p rest st out h
      · rw [if_neg h1] at h
        by_cases h2 : (jsTruthy (lookupA st d) &&
            intersects ((lookupA st d).getD "") dv) = true
        · rw [if_pos h2] at h
          have hT : jsTruthy (lookupA st d) = true := (Bool.and_eq_true _ _ |>.mp h2).1
          have hI := (Bool.and_eq_true _ _ |>.mp h2).2
          obtain ⟨ex, hex, _⟩ := jsTruthy_lookup hT
          rw [hex] at h hI
          simp only [Option.getD_some] at h hI
          exact stMinGe_trans (ih p rest _ out h)
            (stMinGe_setKey_intersect st d ex dv hex hI)
        · rw [if_neg h2] at h
          cases hreg : lookupA reg d with
          | none => rw [hreg] at h; cases h
          | some json =>
            rw [hreg] at h
            dsimp only at h
            cases hv : getVersionFromNpmPackage json ((lookupA p d).getD "") loose with
            | error e2 => rw [hv] at h; cases h
            | ok u =>
              rw [hv] at h
              dsimp only at h
              cases hms : maxSatisfying (json.versions.map Prod.fst) u with
              | none =>
                rw [hms] at h
                dsimp only at h
                exact ih p rest st out h
              | some mtch =>
                rw [hms] at h
                dsimp only at h
                cases hpu : parseRangeVersion u with
                | none =>
                  rw [hpu] at h
                  cases hpd : parseRangeVersion dv <;> rw [hpd] at h <;>
                    dsimp only at h <;> cases h
                | some uv =>
                  rw [hpu] at h
                  cases hpd : parseRangeVersion dv with
                  | none => rw [hpd] at h; dsimp only at h; cases h
                  | some dvv =>
                    rw [hpd] at h
                    dsimp only at h
                    by_cases hlt : semverLt uv dvv = true
                    · rw [if_pos hlt] at h; cases h
                    · rw [if_neg hlt] at h
                      cases hm : mergeConstraint st d u with
                      | error e2 => rw [hm] at h; cases h
                      | ok st2 =>
                        rw [hm] at h
                        dsimp only at h
                        cases hsub : walkAux reg loose pj n
                            (manifestAt json.versions mtch).peerDependencies
                            (edgesOf pj) st2 with
                        | error e2 => rw [hsub] at h; cases h
                        | ok st3 =>
                          rw [hsub] at h
                          dsimp only at h
                          exact stMinGe_trans (ih p rest st3 out h)
                            (stMinGe_trans (ih _ _ st2 st3 hsub)
                              (mergeConstraint_stMinGe st d u st2 hm))

theorem mergeConstraint_domain (st : List (String × String)) (d u : String)
    (st2 : List (String × String)) (h : mergeConstraint st d u = .ok st2)
    (k : String) (hk : (lookupA st2 k).isSome = true) :
    k = d ∨ (lookupA st k).isSome = true := by
  unfold mergeConstraint at h
  by_cases ht : jsTruthy (lookupA st d) = true
  · rw [if_pos ht] at h
    by_cases hi : (!(intersects ((lookupA st d).getD "") u)) = true
    · rw [if_pos hi] at h
      cases h
    · rw [if_neg hi] at h
      cases h
      exact isSome_lookupA_setKey st d k _ hk
  · rw [if_neg ht] at h
    cases h
    exact isSome_lookupA_setKey st d k _ hk

theorem walkAux_domain (reg : Registry) (loose : Bool) (pj : PackageJson) :
    ∀ (n : Nat) (p E st out : List (String × String)),
      walkAux reg loose pj n p E st = .ok out →
      ∀ k, (lookupA out k).isSome = true →
        (lookupA st k).isSome = true ∨ k ∈ E.map Prod.fst ∨
          k ∈ (edgesOf pj).map Prod.fst := by
  intro n
  induction n with
  | zero =>
    intro p E st out h
    cases h
  | succ n ih =>
    intro p E st out h k hk
    cases E with
    | nil =>
      cases h
      exact Or.inl hk
    | cons e rest =>
      obtain ⟨d, dv⟩ := e
      rw [walkAux] at h
      have liftRest : (lookupA st k).isSome = true ∨ k ∈ rest.map Prod.fst ∨
          k ∈ (edgesOf pj).map Prod.fst →
          (lookupA st k).isSome = true ∨ k ∈ ((d, dv) :: rest).map Prod.fst ∨
          k ∈ (edgesOf pj).map Prod.fst := by
        rintro (hx | hx | hx)
        · exact Or.inl hx
        · exact Or.inr (Or.inl (List.mem_cons_of_mem _ hx))
        · exact Or.inr (Or.inr hx)
      have headMem : k = d → k ∈ ((d, dv) :: rest).map Prod.fst := by
        intro he
        subst he
        exact List.mem_cons_self _ _
      by_cases h1 : (!(jsTruthy (lookupA p d)) || lookupA p d == some dv) = true
      · rw [if_pos h1] at h
        exact liftRest (ih p rest st out h k hk)
      · rw [if_neg h1] at h
        by_cases h2 : (jsTruthy (lookupA st d) &&
            intersects ((lookupA st d).getD "") dv) = true
        · rw [if_pos h2] at h
          rcases ih p rest _ out h k hk with hx | hx | hx
          · rcases isSome_lookupA_setKey st d k _ hx with he | hx2
            · exact Or.inr (Or.inl (headMem he))
            · exact Or.inl hx2
          · exact Or.inr (Or.inl (List.mem_cons_of_mem _ hx))
          · exact Or.inr (Or.inr hx)
        · rw [if_neg h2] at h
          cases hreg : lookupA reg d with
          | none => rw [hreg] at h; cases h
          | some json =>
            rw [hreg] at h
            dsimp only at h
            cases hv : getVersionFromNpmPackage json ((lookupA p d).getD "") loose with
            | error e2 => rw [hv] at h; cases h
            | ok u =>
              rw [hv] at h
              dsimp only at h
              cases hms : maxSatisfying (json.versions.map Prod.fst) u with
              | none =>
                rw [hms] at h
                dsimp only at h
                exact liftRest (ih p rest st out h k hk)
              | some mtch =>
                rw [hms] at h
                dsimp only at h
                cases hpu : parseRangeVersion u with
                | none =>
                  rw [hpu] at h
                  cases hpd : parseRangeVersion dv <;> rw [hpd] at h <;>
                    dsimp only at h <;> cases h
                | some uv =>
                  rw [hpu] at h
                  cases hpd : parseRangeVersion dv with
                  | none => rw [hpd] at h; dsimp only at h; cases h
                  | some dvv =>
                    rw [hpd] at h
                    dsimp only at h
                    by_cases hlt : semverLt uv dvv = true
                    · rw [if_pos hlt] at h; cases h
                    · rw [if_neg hlt] at h
                      cases hm : mergeConstraint st d u with
                      | error e2 => rw [hm] at h; cases h
                      | ok st2 =>
                        rw [hm] at h
                        dsimp only at h
                        cases hsub : walkAux reg loose pj n
                            (manifestAt json.versions mtch).peerDependencies
                            (edgesOf pj) st2 with
                        | error e2 => rw [hsub] at h; cases h
                        | ok st3 =>
                          rw [hsub] at h
                          dsimp only at h
                          rcases ih p rest st3 out h k hk with hx | hx | hx
                          · rcases ih _ _ st2 st3 hsub k hx with hy | hy | hy
                            · rcases mergeConstraint_domain st d u st2 hm k hy with he | hy2
                              · exact Or.inr (Or.inl (headMem he))
                              · exact Or.inl hy2
                            · exact Or.inr (Or.inr hy)
                            · exact Or.inr (Or.inr hy)
                          · exact Or.inr (Or.inl (List.mem_cons_of_mem _ hx))
                          · exact Or.inr (Or.inr hx)

/-! Termination lemmas for the fuel-indexed walk. -/

theorem getVersion_no_fuel (json : PkgMeta) (v : String) (loose : Bool)
    (e : NpmError) (h : getVersionFromNpmPackage json v loose = .error e) :
    e ≠ .outOfFuel := by
  unfold getVersionFromNpmPackage at h
  by_cases h1 : jsTruthy (lookupA json.distTags v) = true
  · rw [if_pos h1] at h
    cases h
  · rw [if_neg h1] at h
    by_cases h2 : (!(validRange v)) = true
    · rw [if_pos h2] at h
      cases h
      simp
    · rw [if_neg h2] at h
      unfold selectFromVersions at h
      cases hms : maxSatisfying (json.versions.map Prod.fst)
          (if semverValid v && loose then "~" ++ v else v) with
      | none =>
        rw [hms] at h
        cases h
        simp
      | some m =>
        rw [hms] at h
        dsimp only at h
        by_cases h3 : (if semverValid v && loose then "~" ++ v else v) = "*"
        · rw [if_pos h3] at h; cases h
        · rw [if_neg h3] at h
          by_cases h4 : (if semverValid v && loose then "~" ++ v else v).data.head? = some '~'
          · rw [if_pos h4] at h; cases h
          · rw [if_neg h4] at h
            by_cases h5 : (if semverValid v && loose then "~" ++ v else v).data.head? = some '^'
            · rw [if_pos h5] at h; cases h
            · rw [if_neg h5] at h; cases h

theorem mergeConstraint_no_fuel (st : List (String × String)) (d u : String)
    (e : NpmError) (h : mergeConstraint st d u = .error e) : e ≠ .outOfFuel := by
  unfold mergeConstraint at h
  by_cases ht : jsTruthy (lookupA st d) = true
  · rw [if_pos ht] at h
    by_cases hi : (!(intersects ((lookupA st d).getD "") u)) = true
    · rw [if_pos hi] at h
      cases h
      simp
    · rw [if_neg hi] at h
      cases h
  · rw [if_neg ht] at h
    cases h

theorem walkAux_empty_packages (reg : Registry) (loose : Bool) (pj : PackageJson) :
    ∀ (E : List (String × String)) (st : List (String × String)) (n : Nat),
      E.length + 1 ≤ n → walkAux reg loose pj n [] E st = .ok st := by
  intro E
  induction E with
  | nil =>
    intro st n hn
    cases n with
    | zero => omega
    | succ m => rfl
  | cons e rest ih =>
    intro st n hn
    obtain ⟨d, dv⟩ := e
    cases n with
    | zero => omega
    | succ m =>
      rw [walkAux]
      rw [if_pos (show (!(jsTruthy (lookupA ([] : List (String × String)) d)) ||
        lookupA ([] : List (String × String)) d == some dv) = true from rfl)]
      exact ih st m (by simp at hn ⊢; omega)

theorem walkAux_peerfree (reg : Registry) (loose : Bool) (pj : PackageJson)
    (hpf : PeerFree reg) :
    ∀ (E p st : List (String × String)) (n : Nat),
      (edgesOf pj).length + E.length + 2 ≤ n →
      walkAux reg loose pj n p E st ≠ .error .outOfFuel := by
  intro E
  induction E with
  | nil =>
    intro p st n hn
    cases n with
    | zero => omega
    | succ m =>
      intro hc
      rw [walkAux] at hc
      cases hc
  | cons e rest ih =>
    intro p st n hn
    obtain ⟨d, dv⟩ := e
    cases n with
    | zero => omega
    | succ m =>
      have hm1 : (edgesOf pj).length + rest.length + 2 ≤ m := by
        simp at hn
        omega
      intro hc
      rw [walkAux] at hc
      by_cases h1 : (!(jsTruthy (lookupA p d)) || lookupA p d == some dv) = true
      · rw [if_pos h1] at hc
        exact ih p st m hm1 hc
      · rw [if_neg h1] at hc
        by_cases h2 : (jsTruthy (lookupA st d) &&
            intersects ((lookupA st d).getD "") dv) = true
        · rw [if_pos h2] at hc
          exact ih p _ m hm1 hc
        · rw [if_neg h2] at hc
          cases hreg : lookupA reg d with
          | none => rw [hreg] at hc; cases hc
          | some json =>
            rw [hreg] at hc
            dsimp only at hc
            cases hv : getVersionFromNpmPackage json ((lookupA p d).getD "") loose with
            | error e2 =>
              rw [hv] at hc
              simp only [Except.error.injEq] at hc
              exact getVersion_no_fuel json _ loose e2 hv hc
            | ok u =>
              rw [hv] at hc
              dsimp only at hc
              cases hms : maxSatisfying (json.versions.map Prod.fst) u with
              | none =>
                rw [hms] at hc
                dsimp only at hc
                exact ih p st m hm1 hc
              | some mtch =>
                rw [hms] at hc
                dsimp only at hc
                cases hpu : parseRangeVersion u with
                | none =>
                  rw [hpu] at hc
                  cases hpd : parseRangeVersion dv <;> rw [hpd] at hc <;>
                    dsimp only at hc <;> cases hc
                | some uv =>
                  rw [hpu] at hc
                  cases hpd : parseRangeVersion dv with
                  | none => rw [hpd] at hc; dsimp only at hc; cases hc
                  | some dvv =>
                    rw [hpd] at hc
                    dsimp only at hc
                    by_cases hlt : semverLt uv dvv = true
                    · rw [if_pos hlt] at hc; cases hc
                    · rw [if_neg hlt] at hc
                      cases hmc : mergeConstraint st d u with
                      | error e2 =>
                        rw [hmc] at hc
                        simp only [Except.error.injEq] at hc
                        exact mergeConstraint_no_fuel st d u e2 hmc hc
                      | ok st2 =>
                        rw [hmc] at hc
                        dsimp only at hc
                        have hdeps : (manifestAt json.versions mtch).peerDependencies =
                            ([] : List (String × String)) := by
                          unfold manifestAt
                          cases hlook : lookupA json.versions mtch with
                          | none => rfl
                          | some manif =>
                            have hmem := lookupA_mem _ _ _ hlook
                            have hjson := lookupA_mem reg d json hreg
                            exact hpf (d, json) hjson (mtch, manif) hmem
                        rw [hdeps] at hc
                        rw [walkAux_empty_packages reg loose pj (edgesOf pj) st2 m
                          (by omega)] at hc
                        dsimp only at hc
                        exact ih p st2 m hm1 hc

/-! Per-edge step lemmas for the fetched branch of the walk. -/

theorem mergeConstraint_conflict (st : List (String × String)) (d u ex : String)
    (hex : lookupA st d = some ex) (hne : ex ≠ "") (hint : intersects ex u = false) :
    mergeConstraint st d u = .error (.conflict d u ex) := by
  unfold mergeConstraint
  rw [hex]
  simp only [Option.getD_some]
  rw [if_pos (show jsTruthy (some ex) = true by unfold jsTruthy; simp [hne])]
  rw [if_pos (show (!(intersects ex u)) = true by rw [hint]; rfl)]

theorem mergeConstraint_merge (st : List (String × String)) (d u ex : String)
    (hex : lookupA st d = some ex) (hne : ex ≠ "") (hint : intersects ex u = true) :
    mergeConstraint st d u = .ok (setKey st d (intersectRanges ex u)) := by
  unfold mergeConstraint
  rw [hex]
  simp only [Option.getD_some]
  rw [if_pos (show jsTruthy (some ex) = true by unfold jsTruthy; simp [hne])]
  rw [if_neg (show ¬ ((!(intersects ex u)) = true) by simp [hint])]

theorem mergeConstraint_set (st : List (String × String)) (d u : String)
    (habs : jsTruthy (lookupA st d) = false) :
    mergeConstraint st d u = .ok (setKey st d u) := by
  unfold mergeConstraint
  rw [if_neg (by simp [habs])]

theorem walkAux_downgrade_step (reg : Registry) (loose : Bool) (pj : PackageJson)
    (n : Nat) (p rest st : List (String × String)) (d dv : String) (json : PkgMeta)
    (u mtch : String) (uv dvv : SemVer)
    (h1 : (!(jsTruthy (lookupA p d)) || lookupA p d == some dv) = false)
    (h2 : (jsTruthy (lookupA st d) && intersects ((lookupA st d).getD "") dv) = false)
    (h3 : lookupA reg d = some json)
    (h4 : getVersionFromNpmPackage json ((lookupA p d).getD "") loose = .ok u)
    (h5 : maxSatisfying (json.versions.map Prod.fst) u = some mtch)
    (h6 : parseRangeVersion u = some uv)
    (h7 : parseRangeVersion dv = some dvv)
    (h8 : semverLt uv dvv = true) :
    walkAux reg loose pj (n + 1) p ((d, dv) :: rest) st = .error (.downgrade d dv u) := by
  rw [walkAux]
  rw [if_neg (by simp [h1])]
  rw [if_neg (by simp [h2])]
  rw [h3]
  dsimp only
  rw [h4]
  dsimp only
  rw [h5]
  dsimp only
  rw [h6, h7]
  dsimp only
  rw [if_pos h8]

theorem walkAux_conflict_step (reg : Registry) (loose : Bool) (pj : PackageJson)
    (n : Nat) (p rest st : List (String × String)) (d dv : String) (json : PkgMeta)
    (u mtch ex : String) (uv dvv : SemVer)
    (h1 : (!(jsTruthy (lookupA p d)) || lookupA p d == some dv) = false)
    (h2 : (jsTruthy (lookupA st d) && intersects ((lookupA st d).getD "") dv) = false)
    (h3 : lookupA reg d = some json)
    (h4 : getVersionFromNpmPackage json ((lookupA p d).getD "") loose = .ok u)
    (h5 : maxSatisfying (json.versions.map Prod.fst) u = some mtch)
    (h6 : parseRangeVersion u = some uv)
    (h7 : parseRangeVersion dv = some dvv)
    (h8 : semverLt uv dvv = false)
    (hex : lookupA st d = some ex) (hne : ex ≠ "")
    (hint : intersects ex u = false) :
    walkAux reg loose pj (n + 1) p ((d, dv) :: rest) st = .error (.conflict d u ex) := by
  rw [walkAux]
  rw [if_neg (by simp [h1])]
  rw [if_neg (by simp [h2])]
  rw [h3]
  dsimp only
  rw [h4]
  dsimp only
  rw [h5]
  dsimp only
  rw [h6, h7]
  dsimp only
  rw [if_neg (by simp [h8])]
  rw [mergeConstraint_conflict st d u ex hex hne hint]

theorem walkAux_silent_skip_step (reg : Registry) (loose : Bool) (pj : PackageJson)
    (n : Nat) (p rest st : List (String × String)) (d dv : String) (json : PkgMeta)
    (u : String)
    (h1 : (!(jsTruthy (lookupA p d)) || lookupA p d == some dv) = false)
    (h2 : (jsTruthy (lookupA st d) && intersects ((lookupA st d).getD "") dv) = false)
    (h3 : lookupA reg d = some json)
    (h4 : getVersionFromNpmPackage json ((lookupA p d).getD "") loose = .ok u)
    (h5 : maxSatisfying (json.versions.map Prod.fst) u = none) :
    walkAux reg loose pj (n + 1) p ((d, dv) :: rest) st =
      walkAux reg loose pj n p rest st := by
  rw [walkAux]
  rw [if_neg (by simp [h1])]
  rw [if_neg (by simp [h2])]
  rw [h3]
  dsimp only
  rw [h4]
  dsimp only
  rw [h5]

/-! Version-selection shape analysis. -/

theorem semverValid_of_head_tilde (s : String) (h : s.data.head? = some '~') :
    semverValid s = false := by
  unfold semverValid parseSemVer
  cases hp : parseSemVerD s.data with
  | none => rfl
  | some v =>
    obtain ⟨c, r, hl, hcd⟩ := parseSemVerD_head _ _ hp
    rw [hl] at h
    simp at h
    rw [h] at hcd
    exact absurd hcd (by decide)

theorem semverValid_of_head_caret (s : String) (h : s.data.head? = some '^') :
    semverValid s = false := by
  unfold semverValid parseSemVer
  cases hp : parseSemVerD s.data with
  | none => rfl
  | some v =>
    obtain ⟨c, r, hl, hcd⟩ := parseSemVerD_head _ _ hp
    rw [hl] at h
    simp at h
    rw [h] at hcd
    exact absurd hcd (by decide)

theorem ne_star_of_head (s : String) (c : Char) (h : s.data.head? = some c)
    (hc : ¬ c = '*') : s ≠ "*" := by
  intro he
  rw [he] at h
  simp at h
  exact hc h.symm

theorem tilde_append_data_head (s : String) :
    (("~" : String) ++ s).data.head? = some '~' := by
  rw [String.data_append]
  rfl

theorem tilde_append_ne_star (s : String) : ("~" : String) ++ s ≠ "*" :=
  ne_star_of_head _ '~' (tilde_append_data_head s) (by decide)

theorem getVersion_tag (json : PkgMeta) (s : String) (loose : Bool)
    (ht : jsTruthy (lookupA json.distTags s) = true) :
    getVersionFromNpmPackage json s loose =
      .ok ((if loose then "~" else "") ++ (lookupA json.distTags s).getD "") := by
  unfold getVersionFromNpmPackage
  rw [if_pos ht]

theorem getVersion_star (json : PkgMeta) (loose : Bool) (r : String)
    (ht : jsTruthy (lookupA json.distTags "*") = false)
    (h : getVersionFromNpmPackage json "*" loose = .ok r) :
    maxSatisfying (json.versions.map Prod.fst) "*" = some r := by
  unfold getVersionFromNpmPackage at h
  rw [if_neg (by simp [ht])] at h
  rw [if_neg (show ¬ ((!(validRange "*")) = true) by decide)] at h
  rw [show (if semverValid "*" && loose then "~" ++ "*" else "*") = "*" by
    rw [show semverValid "*" = false by decide, Bool.false_and]
    simp] at h
  unfold selectFromVersions at h
  cases hms : maxSatisfying (json.versions.map Prod.fst) "*" with
  | none => rw [hms] at h; cases h
  | some m =>
    rw [hms] at h
    dsimp only at h
    rw [if_pos rfl] at h
    cases h
    rfl

theorem getVersion_tilde (json : PkgMeta) (loose : Bool) (s r : String)
    (ht : jsTruthy (lookupA json.distTags s) = false)
    (hh : s.data.head? = some '~')
    (h : getVersionFromNpmPackage json s loose = .ok r) :
    ∃ m, maxSatisfying (json.versions.map Prod.fst) s = some m ∧ r = "~" ++ m := by
  unfold getVersionFromNpmPackage at h
  rw [if_neg (by simp [ht])] at h
  by_cases hvr : (!(validRange s)) = true
  · rw [if_pos hvr] at h; cases h
  · rw [if_neg hvr] at h
    rw [show (if semverValid s && loose then "~" ++ s else s) = s by
      rw [semverValid_of_head_tilde s hh, Bool.false_and]
      simp] at h
    unfold selectFromVersions at h
    cases hms : maxSatisfying (json.versions.map Prod.fst) s with
    | none => rw [hms] at h; cases h
    | some m =>
      rw [hms] at h
      dsimp only at h
      rw [if_neg (ne_star_of_head s '~' hh (by decide))] at h
      rw [if_pos hh] at h
      cases h
      exact ⟨m, rfl, rfl⟩

theorem getVersion_caret (json : PkgMeta) (loose : Bool) (s r : String)
    (ht : jsTruthy (lookupA json.distTags s) = false)
    (hh : s.data.head? = some '^')
    (h : getVersionFromNpmPackage json s loose = .ok r) :
    ∃ m, maxSatisfying (json.versions.map Prod.fst) s = some m ∧ r = "^" ++ m := by
  unfold getVersionFromNpmPackage at h
  rw [if_neg (by simp [ht])] at h
  by_cases hvr : (!(validRange s)) = true
  · rw [if_pos hvr] at h; cases h
  · rw [if_neg hvr] at h
    rw [show (if semverValid s && loose then "~" ++ s else s) = s by
      rw [semverValid_of_head_caret s hh, Bool.false_and]
      simp] at h
    unfold selectFromVersions at h
    cases hms : maxSatisfying (json.versions.map Prod.fst) s with
    | none => rw [hms] at h; cases h
    | some m =>
      rw [hms] at h
      dsimp only at h
      rw [if_neg (ne_star_of_head s '^' hh (by decide))] at h
      rw [if_neg (by simp [hh])] at h
      rw [if_pos hh] at h
      cases h
      exact ⟨m, rfl, rfl⟩

theorem getVersion_other (json : PkgMeta) (loose : Bool) (s r : String)
    (ht : jsTruthy (lookupA json.distTags s) = false)
    (hstar : s ≠ "*")
    (h1 : s.data.head? ≠ some '~') (h2 : s.data.head? ≠ some '^')
    (h : getVersionFromNpmPackage json s loose = .ok r) :
    ∃ m, maxSatisfying (json.versions.map Prod.fst)
        (if semverValid s && loose then "~" ++ s else s) = some m ∧
      r = (if loose then "~" else "") ++ m := by
  unfold getVersionFromNpmPackage at h
  rw [if_neg (by simp [ht])] at h
  by_cases hvr : (!(validRange s)) = true
  · rw [if_pos hvr] at h; cases h
  · rw [if_neg hvr] at h
    by_cases hw : (semverValid s && loose) = true
    · rw [if_pos hw] at h
      unfold selectFromVersions at h
      cases hms : maxSatisfying (json.versions.map Prod.fst) ("~" ++ s) with
      | none => rw [hms] at h; cases h
      | some m =>
        rw [hms] at h
        dsimp only at h
        rw [if_neg (tilde_append_ne_star s)] at h
        rw [if_pos (tilde_append_data_head s)] at h
        cases h
        have hl : loose = true := (Bool.and_eq_true _ _ |>.mp hw).2
        refine ⟨m, by rw [if_pos hw]; exact hms, ?_⟩
        rw [hl]
        rfl
    · rw [if_neg hw] at h
      unfold selectFromVersions at h
      cases hms : maxSatisfying (json.versions.map Prod.fst) s with
      | none => rw [hms] at h; cases h
      | some m =>
        rw [hms] at h
        dsimp only at h
        rw [if_neg hstar] at h
        rw [if_neg h1] at h
        rw [if_neg h2] at h
        cases h
        exact ⟨m, by rw [if_neg hw]; exact hms, rfl⟩

/-! Registry-cache lemmas. -/

theorem fetchCached_correct (server : String → Except NpmError PkgMeta) (c : Cache)
    (hc : CacheCorrect server c) (name : String) :
    (fetchCached server c name).1 = server (urlOf name) ∧
      CacheCorrect server (fetchCached server c name).2.1 := by
  unfold fetchCached
  cases hl : lookupA c (urlOf name) with
  | some r =>
    dsimp only
    exact ⟨hc _ _ hl, hc⟩
  | none =>
    dsimp only
    refine ⟨rfl, ?_⟩
    intro u r hur
    by_cases hu : urlOf name = u
    · rw [← hu] at hur ⊢
      simp [lookupA] at hur
      rw [← hur]
    · simp only [lookupA, if_neg hu] at hur
      exact hc _ _ hur

theorem fetchCached_hit (server : String → Except NpmError PkgMeta) (c : Cache)
    (name : String) (hhit : (lookupA c (urlOf name)).isSome = true) :
    (fetchCached server c name).2.2 = false := by
  cases hl : lookupA c (urlOf name) with
  | some r =>
    unfold fetchCached
    rw [hl]
  | none => rw [hl] at hhit; cases hhit

theorem fetchCached_mono (server : String → Except NpmError PkgMeta) (c : Cache)
    (name u : String) (h : (lookupA c u).isSome = true) :
    (lookupA (fetchCached server c name).2.1 u).isSome = true := by
  unfold fetchCached
  cases hl : lookupA c (urlOf name) with
  | some r => exact h
  | none =>
    dsimp only
    by_cases hu : urlOf name = u
    · simp [lookupA, hu]
    · simp only [lookupA, if_neg hu]
      exact h

theorem runFetches_correct (server : String → Except NpmError PkgMeta) :
    ∀ (names : List String) (c : Cache), CacheCorrect server c →
      CacheCorrect server (runFetches server names c).1 := by
  intro names
  induction names with
  | nil => intro c hc; exact hc
  | cons n rest ih =>
    intro c hc
    exact ih _ (fetchCached_correct server c hc n).2

theorem runFetches_mono (server : String → Except NpmError PkgMeta) :
    ∀ (names : List String) (c : Cache) (u : String),
      (lookupA c u).isSome = true →
      (lookupA (runFetches server names c).1 u).isSome = true := by
  intro names
  induction names with
  | nil => intro c u h; exact h
  | cons n rest ih =>
    intro c u h
    exact ih _ u (fetchCached_mono server c n u h)

theorem runFetches_keys (server : String → Except NpmError PkgMeta) :
    ∀ (names : List String) (c : Cache) (name : String), name ∈ names →
      (lookupA (runFetches server names c).1 (urlOf name)).isSome = true := by
  intro names
  induction names with
  | nil => intro c name h; cases h
  | cons n rest ih =>
    intro c name h
    rcases List.mem_cons.mp h with he | hm
    · subst he
      show (lookupA (runFetches server rest
        (fetchCached server c name).2.1).1 (urlOf name)).isSome = true
      apply runFetches_mono
      cases hl : lookupA c (urlOf name) with
      | some r =>
        unfold fetchCached
        rw [hl]
        dsimp only
        rw [hl]
        rfl
      | none =>
        unfold fetchCached
        rw [hl]
        dsimp only
        simp [lookupA]
    · exact ih _ name hm

theorem runFetches_log (server : String → Except NpmError PkgMeta) :
    ∀ (names : List String) (c : Cache),
      (runFetches server names c).2.Nodup ∧
      ∀ u ∈ (runFetches server names c).2, lookupA c u = none := by
  intro names
  induction names with
  | nil => intro c; simp [runFetches]
  | cons n rest ih =>
    intro c
    unfold runFetches
    cases hl : lookupA c (urlOf n) with
    | some r =>
      have hf : fetchCached server c n = (r, c, false) := by
        unfold fetchCached
        rw [hl]
      rw [hf]
      dsimp only
      rw [if_neg (show ¬ ((false : Bool) = true) by simp)]
      simpa using ih c
    | none =>
      have hf : fetchCached server c n =
          (server (urlOf n), (urlOf n, server (urlOf n)) :: c, true) := by
        unfold fetchCached
        rw [hl]
      rw [hf]
      dsimp only
      rw [if_pos rfl]
      obtain ⟨hnd, hfresh⟩ := ih ((urlOf n, server (urlOf n)) :: c)
      constructor
      · simp only [List.singleton_append, List.nodup_cons]
        refine ⟨?_, hnd⟩
        intro hmem
        have hcontra := hfresh _ hmem
        simp [lookupA] at hcontra
      · intro u hu
        simp only [List.singleton_append, List.mem_cons] at hu
        rcases hu with he | hm
        · rw [he]
          exact hl
        · have hfu := hfresh u hm
          by_cases hq : urlOf n = u
          · rw [← hq] at hfu
            simp [lookupA] at hfu
          · simp only [lookupA, if_neg hq] at hfu
            exact hfu

/-- C9: for every run of the update rule in which any resolution error
(registry failure, invalid selector, no satisfying version, downgrade,
conflict — or a manifest read/parse failure) is raised, the tree's
`/package.json` (indeed, the whole tree) is left completely unchanged:
the overwrite step runs only after the whole resolution has completed
without error. -/
theorem c9_no_partial_apply (reg : Registry) (sp : List String) (mv : String)
    (loose : Bool) (fuel : Nat) (tree : Tree) (e : NpmError)
    (h : (updatePackageJsonRun reg sp mv loose fuel tree).1 = some e) :
    (updatePackageJsonRun reg sp mv loose fuel tree).2 = tree := by
  unfold updatePackageJsonRun at h ⊢
  cases h1 : lookupA tree.files "/package.json" with
  | none => rfl
  | some fc =>
    cases fc with
    | raw s => rfl
    | jsonObj pj =>
      rw [h1] at h
      dsimp only at h ⊢
      cases hr : getRecursiveVersions reg pj
          (sp.map fun n => (n, if mv = "" then "latest" else mv)) [] loose fuel with
      | error e2 => rfl
      | ok av =>
        rw [hr] at h
        dsimp only at h
        cases h

/-! The self-peer-dependency cycle of `reg8` never terminates. -/

theorem walkAux_reg8_cycle :
    ∀ n, walkAux reg8 false pj8 n [("a", "^2.0.0")] (edgesOf pj8)
      [("a", "^2.0.0")] = .error .outOfFuel := by
  intro n
  induction n with
  | zero => rfl
  | succ n ih =>
    have hstep : walkAux reg8 false pj8 (n + 1) [("a", "^2.0.0")] (edgesOf pj8)
        [("a", "^2.0.0")] =
        (match walkAux reg8 false pj8 n [("a", "^2.0.0")] (edgesOf pj8)
            [("a", "^2.0.0")] with
         | .error e => .error e
         | .ok st3 => walkAux reg8 false pj8 n [("a", "^2.0.0")] [] st3) := rfl
    rw [hstep, ih]

/-! Claim theorems, counterexamples and witnesses. -/

/-- C1 counterexample: in `reg1`, anchor `p`'s selected version `1.5.0`
peer-depends on `q`, the walk completes, yet `q` is absent from the final
accumulator because `q` is not declared in the root manifest — refuting
"every peer dependency reachable from an anchor is itself resolved even
when it is not declared in the root manifest". -/
theorem c1_counterexample :
    getRecursiveVersions reg1 pj1 [("p", "latest")] [] false 10 =
      .ok [("p", "1.5.0")] ∧
    lookupA [("p", "1.5.0")] "q" = none ∧
    (manifestAt meta1P.versions "1.5.0").peerDependencies = [("q", "^2.0.0")] :=
  ⟨rfl, rfl, rfl⟩

/-- C1 (amended): after merging, the engine recurses with the root
manifest still as the source of edges and the selected version's
peer-dependency map only as the new targets map; consequently a package
acquires a constraint only if it was already in the accumulator or is
declared in the root manifest — a peer dependency not declared there is
never resolved. -/
theorem c1_peers_resolved_only_if_declared (reg : Registry) (loose : Bool)
    (pj : PackageJson) (fuel : Nat) (packages st out : List (String × String))
    (h : getRecursiveVersions reg pj packages st loose fuel = .ok out)
    (k : String) (hk : (lookupA out k).isSome = true) :
    (lookupA st k).isSome = true ∨ k ∈ (edgesOf pj).map Prod.fst := by
  rcases walkAux_domain reg loose pj fuel packages (edgesOf pj) st out h k hk with
    hx | hx | hx
  · exact Or.inl hx
  · exact Or.inr hx
  · exact Or.inr hx

/-- C1 witness: the amended theorem applied to the `reg1` run. -/
theorem c1_witness :
    (lookupA ([] : List (String × String)) "p").isSome = true ∨
      "p" ∈ (edgesOf pj1).map Prod.fst :=
  c1_peers_resolved_only_if_declared reg1 false pj1 10 [("p", "latest")] []
    [("p", "1.5.0")] rfl "p" rfl

/-- C2 counterexample: the spec's scenario (root depends on `a@^1.0.0`,
`a@1.2.0` peer-depends on `b@^2.0.0`, best `b` match `2.5.0`, anchor
`a@latest`, loose off) does not produce `{a: "^1.2.0", b: "^2.5.0"}` in
either binding order. -/
theorem c2_counterexample :
    getRecursiveVersions reg2 pj2 [("a", "latest")] [] false 20 ≠
      .ok [("a", "^1.2.0"), ("b", "^2.5.0")] ∧
    getRecursiveVersions reg2 pj2 [("a", "latest")] [] false 20 ≠
      .ok [("b", "^2.5.0"), ("a", "^1.2.0")] := by
  have hact : getRecursiveVersions reg2 pj2 [("a", "latest")] [] false 20 =
      .ok [("a", "1.2.0")] := rfl
  constructor
  · rw [hact]
    intro h
    injection h with h2
    exact absurd h2 (by decide)
  · rw [hact]
    intro h
    injection h with h2
    exact absurd h2 (by decide)

/-- C2 (amended): the scenario's run produces `{a: "1.2.0"}` — the
dist-tag resolution pins `a` to the bare tagged version under
`loose = false`, and `b` is never resolved because it is not declared in
the root manifest. -/
theorem c2_scenario_actual :
    getRecursiveVersions reg2 pj2 [("a", "latest")] [] false 20 =
      .ok [("a", "1.2.0")] := rfl

/-- C3 counterexample: a bare exact selector with `loose = false` resolves
to the bare matched version, not a `~`-prefixed range — refuting the
"~-prefixed regardless of the loose flag" encoding for the fall-through
case. -/
theorem c3_counterexample :
    getVersionFromNpmPackage meta3 "1.0.0" false = .ok "1.0.0" ∧
    getVersionFromNpmPackage meta3 "1.0.0" false ≠ .ok "~1.0.0" := by
  have hact : getVersionFromNpmPackage meta3 "1.0.0" false = .ok "1.0.0" := rfl
  refine ⟨hact, ?_⟩
  rw [hact]
  intro h
  injection h with h2
  exact absurd h2 (by decide)

/-- C3 (amended): for selectors not hitting a dist-tag, the result encodes
the selector's operator shape — the wildcard `*` yields the bare maximum
satisfying version; an explicit `~`/`^` first character is preserved on
the maximum satisfying version; any other selector yields the matched
version of the (loose-widened when applicable) selector, `~`-prefixed
exactly when `loose` is set and bare otherwise; and a dist-tag hit yields
the tagged version, likewise `~`-prefixed only under `loose`. -/
theorem c3_selector_shape (json : PkgMeta) (loose : Bool) :
    (∀ r, jsTruthy (lookupA json.distTags "*") = false →
      getVersionFromNpmPackage json "*" loose = .ok r →
      maxSatisfying (json.versions.map Prod.fst) "*" = some r) ∧
    (∀ s r, jsTruthy (lookupA json.distTags s) = false →
      s.data.head? = some '~' →
      getVersionFromNpmPackage json s loose = .ok r →
      ∃ m, maxSatisfying (json.versions.map Prod.fst) s = some m ∧
        r = "~" ++ m) ∧
    (∀ s r, jsTruthy (lookupA json.distTags s) = false →
      s.data.head? = some '^' →
      getVersionFromNpmPackage json s loose = .ok r →
      ∃ m, maxSatisfying (json.versions.map Prod.fst) s = some m ∧
        r = "^" ++ m) ∧
    (∀ s r, jsTruthy (lookupA json.distTags s) = false → s ≠ "*" →
      s.data.head? ≠ some '~' → s.data.head? ≠ some '^' →
      getVersionFromNpmPackage json s loose = .ok r →
      ∃ m, maxSatisfying (json.versions.map Prod.fst)
          (if semverValid s && loose then "~" ++ s else s) = some m ∧
        r = (if loose then "~" else "") ++ m) ∧
    (∀ s, jsTruthy (lookupA json.distTags s) = true →
      getVersionFromNpmPackage json s loose =
        .ok ((if loose then "~" else "") ++ (lookupA json.distTags s).getD "")) :=
  ⟨fun r => getVersion_star json loose r,
   fun s r => getVersion_tilde json loose s r,
   fun s r => getVersion_caret json loose s r,
   fun s r => getVersion_other json loose s r,
   fun s ht => getVersion_tag json s loose ht⟩

/-- C3 witness: the amended theorem applied to `meta3` for the wildcard
and a `^` selector. -/
theorem c3_witness :
    maxSatisfying (meta3.versions.map Prod.fst) "*" = some "2.0.0" ∧
    (∃ m, maxSatisfying (meta3.versions.map Prod.fst) "^1.0.0" = some m ∧
      ("^1.0.0" : String) = "^" ++ m) :=
  ⟨(c3_selector_shape meta3 false).1 "2.0.0" rfl rfl,
   (c3_selector_shape meta3 false).2.2.1 "^1.0.0" "^1.0.0" rfl rfl rfl⟩

/-- C4: on a fetched edge whose accumulator entry does not intersect the
newly resolved constraint, the walk fails with a `ConflictError` naming
the package and both constraints; when they intersect, the entry is
replaced by their intersection, and when absent it is set; and a
concrete whole run aborts with exactly that conflict. -/
theorem c4_conflict_merge :
    (∀ (reg : Registry) (loose : Bool) (pj : PackageJson) (n : Nat)
        (p rest st : List (String × String)) (d dv : String) (json : PkgMeta)
        (u mtch ex : String) (uv dvv : SemVer),
      (!(jsTruthy (lookupA p d)) || lookupA p d == some dv) = false →
      (jsTruthy (lookupA st d) && intersects ((lookupA st d).getD "") dv) = false →
      lookupA reg d = some json →
      getVersionFromNpmPackage json ((lookupA p d).getD "") loose = .ok u →
      maxSatisfying (json.versions.map Prod.fst) u = some mtch →
      parseRangeVersion u = some uv →
      parseRangeVersion dv = some dvv →
      semverLt uv dvv = false →
      lookupA st d = some ex → ex ≠ "" →
      intersects ex u = false →
      walkAux reg loose pj (n + 1) p ((d, dv) :: rest) st =
        .error (.conflict d u ex)) ∧
    (∀ (st : List (String × String)) (d u ex : String),
      lookupA st d = some ex → ex ≠ "" → intersects ex u = true →
      mergeConstraint st d u = .ok (setKey st d (intersectRanges ex u))) ∧
    (∀ (st : List (String × String)) (d u : String),
      jsTruthy (lookupA st d) = false →
      mergeConstraint st d u = .ok (setKey st d u)) ∧
    getRecursiveVersions reg4 pj4 [("x", "latest"), ("y", "latest")] [] false 20 =
      .error (.conflict "x" "^3.0.0" "2.0.0") :=
  ⟨fun reg loose pj n p rest st d dv json u mtch ex uv dvv
      h1 h2 h3 h4 h5 h6 h7 h8 hex hne hint =>
    walkAux_conflict_step reg loose pj n p rest st d dv json u mtch ex uv dvv
      h1 h2 h3 h4 h5 h6 h7 h8 hex hne hint,
   fun st d u ex => mergeConstraint_merge st d u ex,
   fun st d u => mergeConstraint_set st d u,
   rfl⟩

/-- C4 witness: the conflict branch fired at the concrete `reg4` state in
which `x` is pinned at `2.0.0` and `y@3.0.0`'s peer map requires
`x@^3.0.0`. -/
theorem c4_witness :
    walkAux reg4 false pj4 6 [("x", "^3.0.0")] [("x", "1.0.0"), ("y", "1.0.0")]
      [("x", "2.0.0"), ("y", "3.0.0")] = .error (.conflict "x" "^3.0.0" "2.0.0") :=
  c4_conflict_merge.1 reg4 false pj4 5 [("x", "^3.0.0")] [("y", "1.0.0")]
    [("x", "2.0.0"), ("y", "3.0.0")] "x" "1.0.0" meta4X "^3.0.0" "3.0.0" "2.0.0"
    ⟨3, 0, 0⟩ ⟨1, 0, 0⟩ rfl rfl rfl rfl rfl rfl rfl rfl rfl (by decide) rfl

/-- C5: on a fetched edge, when the minimum version of the newly resolved
constraint is strictly below the minimum implied by the manifest-declared
version, the walk fails with a `DowngradeError` naming the package and
both versions; in particular a package declared at `1.0.0` resolved to
target `0.9.0` makes the whole run fail with that error. -/
theorem c5_downgrade_fatal :
    (∀ (reg : Registry) (loose : Bool) (pj : PackageJson) (n : Nat)
        (p rest st : List (String × String)) (d dv : String) (json : PkgMeta)
        (u mtch : String) (uv dvv : SemVer),
      (!(jsTruthy (lookupA p d)) || lookupA p d == some dv) = false →
      (jsTruthy (lookupA st d) && intersects ((lookupA st d).getD "") dv) = false →
      lookupA reg d = some json →
      getVersionFromNpmPackage json ((lookupA p d).getD "") loose = .ok u →
      maxSatisfying (json.versions.map Prod.fst) u = some mtch →
      parseRangeVersion u = some uv →
      parseRangeVersion dv = some dvv →
      semverLt uv dvv = true →
      walkAux reg loose pj (n + 1) p ((d, dv) :: rest) st =
        .error (.downgrade d dv u)) ∧
    getRecursiveVersions reg5 pj5 [("a", "0.9.0")] [] false 5 =
      .error (.downgrade "a" "1.0.0" "0.9.0") :=
  ⟨fun reg loose pj n p rest st d dv json u mtch uv dvv h1 h2 h3 h4 h5 h6 h7 h8 =>
    walkAux_downgrade_step reg loose pj n p rest st d dv json u mtch uv dvv
      h1 h2 h3 h4 h5 h6 h7 h8,
   rfl⟩

/-- C5 witness: the downgrade branch fired at the concrete `reg5` edge
declaring `a@1.0.0` with target `0.9.0`. -/
theorem c5_witness :
    walkAux reg5 false pj5 3 [("a", "0.9.0")] [("a", "1.0.0")] [] =
      .error (.downgrade "a" "1.0.0" "0.9.0") :=
  c5_downgrade_fatal.1 reg5 false pj5 2 [("a", "0.9.0")] [] [] "a" "1.0.0" meta5
    "0.9.0" "0.9.0" ⟨0, 9, 0⟩ ⟨1, 0, 0⟩ rfl rfl rfl rfl rfl rfl rfl rfl

/-- C6 counterexample: with a dist-tag named `1.0.0` pointing at `0.5.0`,
the run over `pj6` completes without error with `k ↦ "0.5.0"`, whose
minimum `0.5.0` is strictly below the minimum `1.0.0` of `k`'s pre-run
declared `devDependencies` constraint — refuting the claim's final-state
consequence. -/
theorem c6_counterexample :
    getRecursiveVersions reg6 pj6 [("k", "1.0.0")] [] false 10 =
      .ok [("k", "0.5.0")] ∧
    lookupA (pj6.devDependencies.getD []) "k" = some "1.0.0" ∧
    parseRangeVersion "0.5.0" = some ⟨0, 5, 0⟩ ∧
    parseRangeVersion "1.0.0" = some ⟨1, 0, 0⟩ ∧
    semverLt ⟨0, 5, 0⟩ ⟨1, 0, 0⟩ = true :=
  ⟨rfl, rfl, rfl, rfl, rfl⟩

/-- C6 (amended): each replacement of a stored constraint (fast-path or
post-fetch merge) intersects it with another range, and such an
intersection never lowers the determined minimum; consequently, whenever
the walk completes, every constraint present in the starting accumulator
is still present with a minimum no smaller than before — the final value
is `minGe` the first recorded one.  (The comparison against the pre-run
*declared* constraint fails on the counterexample's semver-named
dist-tag.) -/
theorem c6_replacement_monotone :
    (∀ r1 r2, intersects r1 r2 = true → minGe (intersectRanges r1 r2) r1) ∧
    (∀ (reg : Registry) (loose : Bool) (pj : PackageJson) (fuel : Nat)
        (packages st out : List (String × String)),
      getRecursiveVersions reg pj packages st loose fuel = .ok out →
      StMinGe out st) :=
  ⟨fun r1 r2 h => minGe_intersectRanges r1 r2 h,
   fun reg loose pj fuel packages st out h =>
     walkAux_stMinGe reg loose pj fuel packages (edgesOf pj) st out h⟩

/-- C6 witness: the amended theorem applied to a concrete intersection and
to a concrete completed run seeded with `q ↦ 1.0.0`. -/
theorem c6_witness :
    minGe (intersectRanges "^1.0.0" "^1.2.0") "^1.0.0" ∧
    StMinGe [("q", "1.0.0"), ("p", "1.5.0")] [("q", "1.0.0")] :=
  ⟨c6_replacement_monotone.1 "^1.0.0" "^1.2.0" rfl,
   c6_replacement_monotone.2 reg1 false pj1 10 [("p", "latest")] [("q", "1.0.0")]
     [("q", "1.0.0"), ("p", "1.5.0")] rfl⟩

/-- C7: over any sequence of (interleaved) fetches against the shared
cache, a network call is issued at most once per request URL (the log of
issued URLs has no duplicates); re-fetching any already-requested name
issues no call and returns the same outcome — the server's outcome for
that URL, success or failure alike (failures being cached the same way);
and against any correct cache every fetch observes that same outcome. -/
theorem c7_single_flight (server : String → Except NpmError PkgMeta)
    (names : List String) :
    (runFetches server names []).2.Nodup ∧
    (∀ name, name ∈ names →
      (fetchCached server (runFetches server names []).1 name).2.2 = false ∧
      (fetchCached server (runFetches server names []).1 name).1 =
        server (urlOf name)) ∧
    (∀ (c : Cache) (name : String), CacheCorrect server c →
      (fetchCached server c name).1 = server (urlOf name)) := by
  refine ⟨(runFetches_log server names []).1, ?_, ?_⟩
  · intro name hn
    have hkey := runFetches_keys server names [] name hn
    have hcc : CacheCorrect server ([] : Cache) := by
      intro u r h
      simp [lookupA] at h
    have hcor := runFetches_correct server names [] hcc
    exact ⟨fetchCached_hit server _ name hkey,
      (fetchCached_correct server _ hcor name).1⟩
  · intro c name hc
    exact (fetchCached_correct server c hc name).1

/-- C7 witness: the theorem applied to `server7` (which fails for `q`) and
the request sequence `p, q, p`. -/
theorem c7_witness :
    (runFetches server7 ["p", "q", "p"] []).2.Nodup ∧
    (fetchCached server7 (runFetches server7 ["p", "q", "p"] []).1 "q").2.2 =
      false ∧
    (fetchCached server7 (runFetches server7 ["p", "q", "p"] []).1 "q").1 =
      server7 (urlOf "q") :=
  ⟨(c7_single_flight server7 ["p", "q", "p"]).1,
   ((c7_single_flight server7 ["p", "q", "p"]).2.1 "q" (by simp)).1,
   ((c7_single_flight server7 ["p", "q", "p"]).2.1 "q" (by simp)).2⟩

/-- C8 counterexample: on `reg8` — whose version `2.0.0` of `a`
peer-depends on itself with `^2.0.0`, never intersecting the
root-declared `1.0.0` — the walk exhausts every fuel bound: the source
recursion never terminates, refuting universal termination. -/
theorem c8_counterexample :
    NeverTerminates reg8 pj8 [("a", "^2.0.0")] [] false := by
  intro fuel
  cases fuel with
  | zero => rfl
  | succ n =>
    have hstep : getRecursiveVersions reg8 pj8 [("a", "^2.0.0")] [] false (n + 1) =
        (match walkAux reg8 false pj8 n [("a", "^2.0.0")] (edgesOf pj8)
            [("a", "^2.0.0")] with
         | .error e => .error e
         | .ok st3 => walkAux reg8 false pj8 n [("a", "^2.0.0")] [] st3) := rfl
    rw [hstep, walkAux_reg8_cycle n]

/-- C8 (amended): the walk terminates when no published version declares
peer dependencies (each fetched edge's recursive pass then finds no
targets and returns): with fuel at least `2·|edges| + 2` the run never
exhausts it.  In general a package already resolved can be re-expanded
through its peers, and with a cyclic peer constraint that keeps failing
to intersect the declared version the walk recurses forever. -/
theorem c8_peerfree_terminates (reg : Registry) (loose : Bool) (pj : PackageJson)
    (hpf : PeerFree reg) (packages st : List (String × String)) (fuel : Nat)
    (hfuel : 2 * (edgesOf pj).length + 2 ≤ fuel) :
    getRecursiveVersions reg pj packages st loose fuel ≠ .error .outOfFuel :=
  walkAux_peerfree reg loose pj hpf (edgesOf pj) packages st fuel (by omega)

/-- C8 witness: the amended theorem applied to the peer-free `reg8pf`. -/
theorem c8_witness :
    getRecursiveVersions reg8pf pj8pf [("m", "latest")] [] false 4 ≠
      .error .outOfFuel :=
  c8_peerfree_terminates reg8pf false pj8pf (by unfold PeerFree; decide)
    [("m", "latest")] [] 4 (by decide)

/-- C9 witness: the no-partial-apply theorem at a run failing with the
`reg5` downgrade. -/
theorem c9_witness :
    (updatePackageJsonRun reg5 ["a"] "0.9.0" false 5 tree9).2 = tree9 :=
  c9_no_partial_apply reg5 ["a"] "0.9.0" false 5 tree9
    (.downgrade "a" "1.0.0" "0.9.0") rfl

/-- C10: on a fetched edge, when the re-computed maximum published version
satisfying the updated constraint does not exist, the edge is silently
dropped — no error, no accumulator change, no downgrade/conflict check,
no recursion — and the walk continues with the remaining edges; the
branch is reachable via a dist-tag pointing at an unpublished version,
as the concrete `reg10` run shows. -/
theorem c10_silent_skip :
    (∀ (reg : Registry) (loose : Bool) (pj : PackageJson) (n : Nat)
        (p rest st : List (String × String)) (d dv : String) (json : PkgMeta)
        (u : String),
      (!(jsTruthy (lookupA p d)) || lookupA p d == some dv) = false →
      (jsTruthy (lookupA st d) && intersects ((lookupA st d).getD "") dv) = false →
      lookupA reg d = some json →
      getVersionFromNpmPackage json ((lookupA p d).getD "") loose = .ok u →
      maxSatisfying (json.versions.map Prod.fst) u = none →
      walkAux reg loose pj (n + 1) p ((d, dv) :: rest) st =
        walkAux reg loose pj n p rest st) ∧
    getRecursiveVersions reg10 pj10 [("x", "latest")] [] false 10 = .ok [] :=
  ⟨fun reg loose pj n p rest st d dv json u h1 h2 h3 h4 h5 =>
    walkAux_silent_skip_step reg loose pj n p rest st d dv json u h1 h2 h3 h4 h5,
   rfl⟩

/-- C10 witness: the silent-skip branch fired at the concrete `reg10`
edge whose `latest` tag points at the unpublished `9.9.9`. -/
theorem c10_witness :
    walkAux reg10 false pj10 3 [("x", "latest")] [("x", "1.0.0")] [] =
      walkAux reg10 false pj10 2 [("x", "latest")] [] [] :=
  c10_silent_skip.1 reg10 false pj10 2 [("x", "latest")] [] [] "x" "1.0.0" meta10
    "9.9.9" rfl rfl rfl rfl rfl

end PkgUpdate
